import Mathlib

/-!
# crispr_sites: a shallow embedding of `crispr_sites.cpp`

The definitions below follow `src/crispr_sites/crispr_sites.cpp` function by function.

Conventions of the embedding.

* A byte is a `Char`; a `const char*` / `char*` is a memory `Nat → Char`, and pointer
  arithmetic `p + i` is `offset p i`.  The capacity of the read buffer is not modelled:
  the source sizes it so that `overlap + bytes_read` always fits.
* `int64_t` values are `Int`.  The codec is instantiated at `len = k - 3`, which
  `assert(k <= 24)` bounds by 21 lanes; there every shift and or stays inside 63 bits, so
  no reduction modulo `2^64` is needed.  `encode`, `decode` and `complement` are the
  source's arithmetic for `len ≤ 21` only, and the results about them are stated there.
* The 32 bit quantities `number_variants` and `current_count` are reduced with `int32`.
  The shift `1 << (2 * num_N_to_expand)` on an `int` is defined up to
  `num_N_to_expand = 15`: `emit_all_variants` is the source's function in that range only
  (`try_match` calls it with at most `max_N = 2`), and the results about it are stated
  there.
* Buffer offsets (`len`, `i`, the entries of `separator_indices`) are `int` variables that
  never become negative and are bounded by the buffer size; they are `Nat`.  `overlap`
  can become negative and is an `Int`.
* `assert` is fatal: a function that can hit one returns an `Option`.
* `vector::push_back` is list append, `std::sort` is a sort for `≤` on `Int`.
-/

namespace CrisprSites

/-! ## Constants -/

/-- Modelled from the spec: `k` is declared in `crispr_sites.hpp`, which is not among the
sources; the spec gives the guide+PAM width as guide length + 3 = 23. -/
def k : Nat := 23

/-- Source: `constexpr int max_N = 2;`. -/
def max_N : Int := 2

/-- Source: `constexpr bool expand_N_variants = true;`. -/
def expand_N_variants : Bool := true

/-- Source: `constexpr int bits_per_base = 3;`. -/
def bits_per_base : Nat := 3

/-- Source: `constexpr int64_t lsb = 1;`. -/
def lsb : Int := 1

/-- Source: `base_mask = (lsb << bits_per_base) - lsb`. -/
def base_mask : Int := (lsb <<< (bits_per_base : Int)) - lsb

/-- Source: `forward_direction = false`. -/
def forward_direction : Bool := false

/-- Source: `reverse_complement = true`. -/
def reverse_complement : Bool := true

/-- Two's complement reduction of an integer to the range of a 32 bit `int`. -/
def int32 (x : Int) : Int := (x + 2 ^ 31) % 2 ^ 32 - 2 ^ 31

/-! ## Memory -/

/-- The pointer `p + i`. -/
def offset (p : Nat → Char) (i : Nat) : Nat → Char := fun j => p (i + j)

/-- The store `p[i] = c`. -/
def store (p : Nat → Char) (i : Nat) (c : Char) : Nat → Char :=
  fun j => if j = i then c else p j

/-- A memory holding the characters of `l` from address 0 on (zero bytes after them). -/
def ptr (l : List Char) : Nat → Char := fun j => l.getD j (Char.ofNat 0)

/-- The `n` characters of memory `p` starting at address 0. -/
def readN (p : Nat → Char) (n : Nat) : List Char := (List.range n).map p

/-! ## Base codec -/

/-- Source: `fcm`.  `fcm(len)` recurses on `len - 1` until `len == 1`; from `len = 0` the
recursion never reaches its base case, which is `none` here. -/
def fcm : Nat → Option Int
  | 0 => none
  | 1 => some 6
  | n + 2 => (fcm (n + 1)).map (fun m => Int.lor 6 (m <<< (bits_per_base : Int)))

/-- Source: `constexpr int64_t complement_mask = fcm(k - 3);`. -/
def complement_mask : Int :=
  match fcm (k - 3) with
  | some m => m
  | none => 0

/-- Source: `bitcode_for_base`; falling out of the switch hits `assert(false)`. -/
def bitcode_for_base (c : Char) : Option Int :=
  if c = 'A' then some 1
  else if c = 'C' then some 2
  else if c = 'N' then some 3
  else if c = 'G' then some 4
  else if c = 'T' then some 5
  else none

/-- Source: `base_for_bitcode`; falling out of the switch hits `assert(false)`. -/
def base_for_bitcode (single_base_code : Int) : Option Char :=
  if single_base_code = 1 then some 'A'
  else if single_base_code = 2 then some 'C'
  else if single_base_code = 3 then some 'N'
  else if single_base_code = 4 then some 'G'
  else if single_base_code = 5 then some 'T'
  else none

/-- The global `int encoding[256]` before `init_encoding`: static storage, all zero. -/
def encoding_zero : Char → Int := fun _ => 0

/-- Source: `init_encoding`, as a transformer of the table. -/
def init_encoding (encoding : Char → Int) : Option (Char → Int) := do
  let a ← bitcode_for_base 'A'
  let encoding := Function.update encoding 'A' a
  let c ← bitcode_for_base 'C'
  let encoding := Function.update encoding 'C' c
  let n ← bitcode_for_base 'N'
  let encoding := Function.update encoding 'N' n
  let g ← bitcode_for_base 'G'
  let encoding := Function.update encoding 'G' g
  let t ← bitcode_for_base 'T'
  let encoding := Function.update encoding 'T' t
  pure encoding

/-- The table `encoding` once `init_encoding` has run on the zero-initialised array. -/
def encoding : Char → Int :=
  match init_encoding encoding_zero with
  | some t => t
  | none => encoding_zero

/-- The loop of `encode<len>`: `n` iterations remain, the next index is `i`. -/
def encode_loop (len : Nat) (buf : Nat → Char) : Nat → Nat → Int → Int
  | 0, _, code => code
  | n + 1, i, code =>
    let base_code : Int := encoding (buf i)
    encode_loop len buf n (i + 1)
      (Int.lor code
        ((Int.land base_code base_mask) <<< ((bits_per_base * (len - i - 1) : Nat) : Int)))

/-- Source: `encode<len>`.  The `int64_t` accumulator is an `Int`: exact for `len ≤ 21`,
where the packed code is below `2^63`; for longer strings the source loses the leading
lanes and this definition does not describe it. -/
def encode (len : Nat) (buf : Nat → Char) : Int := encode_loop len buf len 0 0

/-- The loop of `decode`: `n` iterations remain, the next index is `i`; the result is the
characters written to `buf[i], buf[i+1], ...`, or `none` when `base_for_bitcode` asserts. -/
def decode_loop (len : Nat) (code : Int) : Nat → Nat → Option (List Char)
  | 0, _ => some []
  | n + 1, i =>
    match base_for_bitcode
        (Int.land (code >>> (bits_per_base * (len - i - 1))) base_mask) with
    | none => none
    | some c =>
      match decode_loop len code n (i + 1) with
      | none => none
      | some rest => some (c :: rest)

/-- Source: `decode`; the result is the content written to `buf[0 .. len)`. -/
def decode (len : Nat) (code : Int) : Option (List Char) := decode_loop len code len 0

/-- Source: `complement`. -/
def complement (code : Int) : Int := complement_mask - code

/-! ## Motif matcher and wildcard expander -/

/-- Source: `emit<direction>`. -/
def emit (direction : Bool) (results : List Int) (guide : Nat → Char) : List Int :=
  let code := encode (k - 3) guide
  let code := if direction = reverse_complement then complement code else code
  results ++ [code]

/-- Source: `constexpr char bases[] = {'A', 'C', 'G', 'T'}`. -/
def bases : List Char := ['A', 'C', 'G', 'T']

/-- The `do { --pos; ... } while (pos)` loop of `emit_all_variants`, entered with `pos`
positive: the argument is the value of `pos` before the decrement. -/
def variant_loop (guide : Nat → Char) (n_code : Int) :
    Nat → Nat → (Nat → Char) → (Nat → Char)
  | 0, _, guide_variant => guide_variant
  | pos + 1, code_pos, guide_variant =>
    let c := guide pos
    if c = 'N' then
      let c := bases.getD (Int.land (n_code >>> (code_pos * 2)) 3).toNat (Char.ofNat 0)
      variant_loop guide n_code pos (code_pos + 1) (store guide_variant pos c)
    else
      variant_loop guide n_code pos code_pos (store guide_variant pos c)

/-- The `for (n_code ...)` loop of `emit_all_variants`: `n` iterations remain. -/
def variants_loop (direction : Bool) (guide : Nat → Char) :
    Nat → Int → List Int → List Int
  | 0, _, results => results
  | n + 1, n_code, results =>
    variants_loop direction guide n (n_code + 1)
      (emit direction results (variant_loop guide n_code (k - 3) 0 (fun _ => Char.ofNat 0)))

/-- Source: `emit_all_variants<direction>`.  `number_variants` is an `int`: the shift is
reduced to 32 bits, which changes nothing for `num_N_to_expand ≤ 15`.  From 16 on the
source's shift is undefined and this definition does not describe it. -/
def emit_all_variants (direction : Bool) (results : List Int) (guide : Nat → Char)
    (num_N_to_expand : Int) : List Int :=
  let number_variants := int32 ((1 : Int) <<< (2 * num_N_to_expand))
  variants_loop direction guide number_variants.toNat 0 results

/-- Source: `index<direction>`. -/
def index (direction : Bool) (j : Nat) : Nat :=
  if direction = forward_direction then j else k - 1 - j

/-- The statement `count[c] += 1`. -/
def bump (count : Char → Int) (c : Char) : Char → Int :=
  Function.update count c (count c + 1)

/-- The `for (j ...)` loop of `try_match` that copies the guide and counts its bases:
`n` iterations remain, the next index is `j`. -/
def guide_loop (direction : Bool) (bufi : Nat → Char) :
    Nat → Nat → (Nat → Char) → (Char → Int) → (Nat → Char) × (Char → Int)
  | 0, _, guide, count => (guide, count)
  | n + 1, j, guide, count =>
    let c := bufi (index direction j)
    guide_loop direction bufi n (j + 1) (store guide j c) (bump count c)

/-- Source: `try_match<direction, cog>`.  Only the cells `count[cog]` and `count['N']` are
initialised and read; the other cells of the local array start here at 0.  The assertion
`cog == 'C' || cog == 'G'` holds for both instantiations of the template. -/
def try_match (direction : Bool) (cog : Char) (results : List Int) (bufi : Nat → Char) :
    List Int :=
  let count : Char → Int := fun _ => 0
  let count := Function.update count cog 0
  let count := Function.update count 'N' 0
  let opposite_direction := !direction
  let count := bump count (bufi (index opposite_direction 0))
  let count := bump count (bufi (index opposite_direction 1))
  if count cog + count 'N' = 2 then
    let pam_N := count 'N'
    let gc := guide_loop direction bufi (k - 3) 0 (fun _ => Char.ofNat 0) count
    let guide := gc.1
    let count := gc.2
    if count 'N' ≤ max_N then
      let num_N_to_expand := count 'N' - pam_N
      if expand_N_variants && decide (num_N_to_expand > 0) then
        emit_all_variants direction results guide num_N_to_expand
      else
        emit direction results guide
    else results
  else results

/-- The `for (i ...)` loop of `scan_for_kmers`: `n` iterations remain, the next offset
is `i`. -/
def kmers_loop (buf : Nat → Char) : Nat → Nat → List Int → List Int
  | 0, _, results => results
  | n + 1, i, results =>
    let results := try_match forward_direction 'G' results (offset buf i)
    let results := try_match reverse_complement 'C' results (offset buf i)
    kmers_loop buf n (i + 1) results

/-- Source: `scan_for_kmers`. -/
def scan_for_kmers (results : List Int) (buf : Nat → Char) (len : Nat) : List Int :=
  if len < k then results else kmers_loop buf (len - k + 1) 0 results

/-! ## Windowed stream scanner -/

/-- The variables of `scan_stdin` that live across iterations of the read loop. -/
structure ScanState where
  /-- The vector `results`. -/
  results : List Int
  /-- The content of the read buffer `window`. -/
  window : Nat → Char
  /-- The vector `separator_indices`. -/
  separator_indices : List Nat
  /-- The counter `lines`. -/
  lines : Nat
  /-- The counter `bases`. -/
  bases : Nat
  /-- The flag `chrm_comment`. -/
  chrm_comment : Bool
  /-- The variable `overlap`. -/
  overlap : Int

/-- The state at the first iteration: `vector<char> buffer(BUFFER_SIZE)` is zero filled. -/
def ScanState.init : ScanState where
  results := []
  window := fun _ => Char.ofNat 0
  separator_indices := []
  lines := 0
  bases := 0
  chrm_comment := false
  overlap := 0

/-- The system call `read(fd, window + overlap, STRIDE_SIZE)` that returned the bytes
`chunk`: they are stored from `window[overlap]` on. -/
def read_into (window : Nat → Char) (overlap : Nat) (chunk : List Char) : Nat → Char :=
  fun j => if overlap ≤ j ∧ j < overlap + chunk.length then
    chunk.getD (j - overlap) (Char.ofNat 0) else window j

/-- The variables changed by the normalize loop of `scan_stdin`. -/
structure NormState where
  /-- The read buffer. -/
  window : Nat → Char
  /-- The compacted length `len`. -/
  len : Nat
  /-- The counter `lines`. -/
  lines : Nat
  /-- The flag `chrm_comment`. -/
  chrm_comment : Bool
  /-- The vector `separator_indices`. -/
  separator_indices : List Nat

/-- One iteration of the normalize loop, at index `i`. -/
def normalize_step (s : NormState) (i : Nat) : NormState :=
  let c := (s.window i).toUpper
  if c = '\n' then
    { s with
      lines := s.lines + 1
      separator_indices :=
        if s.chrm_comment then s.separator_indices ++ [s.len + 1] else s.separator_indices
      chrm_comment := false }
  else if !s.chrm_comment then
    if c = '>' then
      { s with chrm_comment := true }
    else
      { s with window := store s.window s.len c, len := s.len + 1 }
  else s

/-- The normalize loop `for (i = overlap; i < bytes_read + overlap; ++i)`: `n` iterations
remain, the next index is `i`. -/
def normalize_loop : Nat → Nat → NormState → NormState
  | 0, _, s => s
  | n + 1, i, s => normalize_loop n (i + 1) (normalize_step s i)

/-- The loop `for (it = begin(); it != --end(); it++)` over neighbouring separators. -/
def scan_between (window : Nat → Char) : List Nat → List Int → List Int
  | a :: b :: rest, results =>
    scan_between window (b :: rest) (scan_for_kmers results (offset window a) (b - a))
  | _, results => results

/-- The loop `for (i = 0; i < overlap; ++i) window[i] = window[len - overlap + i]`: `n`
iterations remain, the next index is `i`. -/
def move_loop (len overlap : Nat) : Nat → Nat → (Nat → Char) → (Nat → Char)
  | 0, _, window => window
  | n + 1, i, window =>
    move_loop len overlap n (i + 1) (store window i (window (len - overlap + i)))

/-- The scans of the branch `separator_indices.size() != 0`, in source order. -/
def scan_separated (results : List Int) (window : Nat → Char) (seps : List Nat)
    (len : Nat) : List Int :=
  let first := seps.headD 0
  let last := seps.getLastD 0
  let results := if first > 0 then scan_for_kmers results window first else results
  let results := scan_between window seps results
  if last < len then scan_for_kmers results (offset window last) (len - last) else results

/-- One iteration of the read loop of `scan_stdin` in which `read` returned the non-empty
`chunk`; `none` when a loop-head assertion fails. -/
def scan_iteration (st : ScanState) (chunk : List Char) : Option ScanState :=
  if 0 ≤ st.overlap ∧ st.overlap < (k : Int) then
    let overlap := st.overlap.toNat
    let bytes_read := chunk.length
    let window := read_into st.window overlap chunk
    let ns := normalize_loop bytes_read overlap
      { window := window, len := overlap, lines := st.lines,
        chrm_comment := st.chrm_comment, separator_indices := st.separator_indices }
    let len := ns.len
    let bases := st.bases + (len - overlap)
    if len < k then
      some { results := st.results, window := ns.window,
             separator_indices := ns.separator_indices, lines := ns.lines, bases := bases,
             chrm_comment := ns.chrm_comment, overlap := len }
    else
      let overlap := k - 1
      if ns.separator_indices.length = 0 then
        let results := scan_for_kmers st.results ns.window len
        some { results := results, window := move_loop len overlap overlap 0 ns.window,
               separator_indices := [], lines := ns.lines, bases := bases,
               chrm_comment := ns.chrm_comment, overlap := overlap }
      else
        let results := scan_separated st.results ns.window ns.separator_indices len
        let last := ns.separator_indices.getLastD 0
        if last ≥ len - overlap then
          let overlap : Int := (len : Int) - (last : Int)
          some { results := results
                 window := move_loop len overlap.toNat overlap.toNat 0 ns.window
                 separator_indices := [0], lines := ns.lines, bases := bases
                 chrm_comment := ns.chrm_comment, overlap := overlap }
        else
          some { results := results, window := move_loop len overlap overlap 0 ns.window,
                 separator_indices := [], lines := ns.lines, bases := bases,
                 chrm_comment := ns.chrm_comment, overlap := overlap }
  else none

/-- The read loop of `scan_stdin` over the successive results of `read`: an empty chunk, or
the end of the list, is the `read` that returns 0 and leaves the loop.  The loop-head
assertions are checked before every `read`. -/
def read_loop : ScanState → List (List Char) → Option ScanState
  | st, [] => if 0 ≤ st.overlap ∧ st.overlap < (k : Int) then some st else none
  | st, chunk :: rest =>
    if chunk.length = 0 then
      if 0 ≤ st.overlap ∧ st.overlap < (k : Int) then some st else none
    else
      match scan_iteration st chunk with
      | none => none
      | some st => read_loop st rest

/-- The candidate list `results` of `scan_stdin` when the read loop is left. -/
def scan_results (chunks : List (List Char)) : Option (List Int) :=
  (read_loop ScanState.init chunks).map (fun st => st.results)

/-! ## Result aggregator -/

/-- One printed line of standard output: the text of `obuf` before its separator, and the
number printed after it when `output_counts` is set. -/
structure OutputLine where
  /-- The decoded guide. -/
  guide : List Char
  /-- The value of `current_count` that was printed, if any. -/
  count : Option Int
deriving DecidableEq, Repr

/-- The loop of `scan_stdin` that counts the unique guides, from `last` and `guides`. -/
def unique_loop : List Int → Int → Nat → Nat
  | [], _, guides => guides
  | x :: rest, last, guides =>
    unique_loop rest x (if x ≠ last then guides + 1 else guides)

/-- The output loop of `scan_stdin` over the sorted `results`; `current_count` is an
`int32_t`.  `none` when `decode` hits an assertion. -/
def output_loop (output_counts : Bool) : List Int → Int → Option (List OutputLine)
  | [], _ => some []
  | x :: rest, current_count =>
    let current_count := int32 (current_count + 1)
    if rest.head? ≠ some x then
      match decode (k - 3) x with
      | none => none
      | some obuf =>
        match output_loop output_counts rest 0 with
        | none => none
        | some out =>
          some ({ guide := obuf, count := if output_counts then some current_count else none }
            :: out)
    else output_loop output_counts rest current_count

/-- The output stage of `scan_stdin`: sort, then the output loop. -/
def output_stage (output_counts : Bool) (results : List Int) : Option (List OutputLine) :=
  output_loop output_counts (results.insertionSort (· ≤ ·)) 0

/-- Source: `scan_stdin`, as a function from the successive `read` results to the lines
written to standard output. -/
def scan_stdin (output_counts : Bool) (chunks : List (List Char)) :
    Option (List OutputLine) :=
  match read_loop ScanState.init chunks with
  | none => none
  | some st => output_stage output_counts st.results

/-! ## Vocabulary of the statements -/

/-- The packed value of a list of lanes, most significant lane first. -/
def pack (ds : List Nat) : Nat := ds.foldl (fun acc d => acc * 8 + d) 0

/-- The lane of a character in the table `encoding`, as a natural number. -/
def laneOf (c : Char) : Nat := (encoding c).toNat

/-- The five symbols of the alphabet. -/
def IsBase (c : Char) : Prop := c = 'A' ∨ c = 'C' ∨ c = 'G' ∨ c = 'T' ∨ c = 'N'

instance (c : Char) : Decidable (IsBase c) := by unfold IsBase; infer_instance

/-- The character of a lane value (the inverse of `laneOf` on the alphabet). -/
def baseChar (d : Nat) : Char :=
  if d = 1 then 'A' else if d = 2 then 'C' else if d = 3 then 'N'
  else if d = 4 then 'G' else if d = 5 then 'T' else Char.ofNat 0

/-- The complementary base: A and T swap, C and G swap, N is its own complement. -/
def comp_base (c : Char) : Char :=
  if c = 'A' then 'T' else if c = 'T' then 'A' else if c = 'C' then 'G'
  else if c = 'G' then 'C' else c

/-- The lane of `code` that `decode` hands to `base_for_bitcode` at index `i`. -/
def lane (len : Nat) (code : Int) (i : Nat) : Int :=
  Int.land (code >>> (bits_per_base * (len - i - 1))) base_mask

/-- Number of `N` characters, as the `int` the source counts with. -/
def countN (l : List Char) : Int := (l.count 'N' : Nat)

/-- The characters of the window at the two PAM positions that `try_match<direction>`
inspects (through `index<!direction>`). -/
def pamOf (direction : Bool) (bufi : Nat → Char) : List Char :=
  [bufi (index (!direction) 0), bufi (index (!direction) 1)]

/-- The `k-3` guide characters that `try_match<direction>` copies, in copy order. -/
def guideOf (direction : Bool) (bufi : Nat → Char) : List Char :=
  (List.range (k - 3)).map (fun j => bufi (index direction j))

/-- The PAM test of `try_match`: both PAM characters are `cog` or `N`. -/
def pamPresent (direction : Bool) (cog : Char) (bufi : Nat → Char) : Prop :=
  ∀ c ∈ pamOf direction bufi, c = cog ∨ c = 'N'

instance (direction : Bool) (cog : Char) (bufi : Nat → Char) :
    Decidable (pamPresent direction cog bufi) := by unfold pamPresent; infer_instance

/-- The code that `emit<direction>` pushes for the guide at `guide`. -/
def emit_code (direction : Bool) (guide : Nat → Char) : Int :=
  if direction = reverse_complement then complement (encode (k - 3) guide)
  else encode (k - 3) guide

/-- The array `guide_variant` that `emit_all_variants` builds for `n_code`. -/
def variant (guide : Nat → Char) (n_code : Int) : Nat → Char :=
  variant_loop guide n_code (k - 3) 0 (fun _ => Char.ofNat 0)

/-- The base that `emit_all_variants` substitutes for a wildcard when `n_code = n` and
`code_pos = cp`: digit `cp` of `n` in base 4, as an index into `bases`. -/
def digitBase (n cp : Nat) : Char := bases.getD (n / 4 ^ cp % 4) (Char.ofNat 0)

/-- The variant of guide `g` for `n_code = n`: every N is replaced by the base selected by
the base 4 digit of `n` whose index is the number of N to its right. -/
def fill_variant : List Char → Nat → List Char
  | [], _ => []
  | c :: rest, n =>
    (if c = 'N' then digitBase n (rest.count 'N') else c) :: fill_variant rest n

/-- `v` assigns one of A, C, G, T to every wildcard of `g` and agrees with `g` elsewhere. -/
def IsFill : List Char → List Char → Prop
  | [], [] => True
  | c :: g, d :: v => (if c = 'N' then d ∈ bases else d = c) ∧ IsFill g v
  | _, _ => False

/-- The line printed for code `c` with counter value `n`. -/
def line_of (output_counts : Bool) (c : Int) (n : Int) : OutputLine :=
  { guide := (decode (k - 3) c).getD [], count := if output_counts then some n else none }

/-- The header-delimited sequences of an input stream (spec §6): a line that begins with
'>' is a header and closes the current sequence; the other lines are upper-cased and
concatenated across line breaks.  `cur` is the sequence under construction and
`in_header` tells whether the current line is a header. -/
def segments_from : List Char → List Char → Bool → List (List Char)
  | [], cur, _ => [cur]
  | c :: rest, cur, true =>
    if c = '\n' then segments_from rest cur false else segments_from rest cur true
  | c :: rest, cur, false =>
    if c = '\n' then segments_from rest cur false
    else if c = '>' then cur :: segments_from rest [] true
    else segments_from rest (cur ++ [c.toUpper]) false

/-- The header-delimited sequences of a whole input stream. -/
def segments (input : List Char) : List (List Char) := segments_from input [] false

/-- The upper-cased, newline-stripped sequence of a header-free input. -/
def sequence_of (input : List Char) : List Char :=
  (input.map Char.toUpper).filter (fun c => c != '\n')

/-- The candidates of a single call of `scan_for_kmers` on the sequence `s`. -/
def kmers (s : List Char) : List Int := scan_for_kmers [] (ptr s) s.length

/-- The codes that one iteration of the loop of `scan_for_kmers` appends at offset `j`. -/
def site (buf : Nat → Char) (j : Nat) : List Int :=
  try_match reverse_complement 'C' (try_match forward_direction 'G' [] (offset buf j))
    (offset buf j)

/-- The state of the normalize loop of `scan_stdin` when it ends, in the iteration that
starts in state `st` and reads `chunk`. -/
def norm_of (st : ScanState) (chunk : List Char) : NormState :=
  normalize_loop chunk.length st.overlap.toNat
    { window := read_into st.window st.overlap.toNat chunk, len := st.overlap.toNat,
      lines := st.lines, chrm_comment := st.chrm_comment,
      separator_indices := st.separator_indices }

/-- Loop-head invariant of the read loop on header-free input: `P` is the sequence read so
far, `results` holds its candidates, and the first `overlap` bytes of `window` are the
last `min |P| (k-1)` bases of `P`. -/
def PlainInv (st : ScanState) (P : List Char) : Prop :=
  st.separator_indices = [] ∧ st.chrm_comment = false ∧
  st.overlap = ((min P.length (k - 1) : Nat) : Int) ∧
  readN st.window (min P.length (k - 1)) = P.drop (P.length - min P.length (k - 1)) ∧
  st.results = kmers P

/-- A valid packed code: the encoding of `k-3` symbols of the alphabet {A,C,G,T,N}. -/
def ValidCode (x : Int) : Prop :=
  ∃ s : List Char, s.length = k - 3 ∧ (∀ c ∈ s, IsBase c) ∧ x = encode (k - 3) (ptr s)

/-- The rank of a symbol in the base order A < C < N < G < T. -/
def base_rank (c : Char) : Nat :=
  if c = 'A' then 0 else if c = 'C' then 1 else if c = 'N' then 2
  else if c = 'G' then 3 else 4

/-- `lex_before s t`: `s` precedes `t` lexicographically under the base order
A < C < N < G < T. -/
def lex_before : List Char → List Char → Prop
  | [], [] => False
  | [], _ :: _ => True
  | _ :: _, [] => False
  | a :: s, b :: t => base_rank a < base_rank b ∨ (a = b ∧ lex_before s t)

/-- The states of the normalize loop of `scan_stdin` after each of its iterations: `n`
iterations remain, the next index is `i`. -/
def normalize_trace : Nat → Nat → NormState → List NormState
  | 0, _, _ => []
  | n + 1, i, s => normalize_step s i :: normalize_trace n (i + 1) (normalize_step s i)

/-- The values that `separator_indices` holds during a run of the read loop of
`scan_stdin`: at every loop head and after every iteration of the normalize loop, until
the input ends or a loop-head assertion fails.  (The empty vector between `clear()` and
`push_back(0)` is left out.) -/
def separator_trace : ScanState → List (List Char) → List (List Nat)
  | st, [] => [st.separator_indices]
  | st, chunk :: rest =>
    st.separator_indices ::
      (if chunk.length = 0 then []
      else
        match scan_iteration st chunk with
        | none => []
        | some st' =>
          (normalize_trace chunk.length st.overlap.toNat
              { window := read_into st.window st.overlap.toNat chunk,
                len := st.overlap.toNat, lines := st.lines,
                chrm_comment := st.chrm_comment,
                separator_indices := st.separator_indices }).map
            (fun s => s.separator_indices)
          ++ separator_trace st' rest)

/-- Invariant of the normalize loop: the separators are non-decreasing and none exceeds
`len + 1`. -/
def NormInv (s : NormState) : Prop :=
  s.separator_indices.Sorted (· ≤ ·) ∧ ∀ x ∈ s.separator_indices, x ≤ s.len + 1

/-- Invariant of the read loop at its head: the separators are non-decreasing and none
exceeds `overlap + 1`. -/
def SepInv (st : ScanState) : Prop :=
  st.separator_indices.Sorted (· ≤ ·) ∧ ∀ x ∈ st.separator_indices, x ≤ st.overlap.toNat + 1

/-! # Theorems -/

/-! ## Base codec -/

theorem encoding_eq (c : Char) :
    encoding c = if c = 'A' then 1 else if c = 'C' then 2 else if c = 'N' then 3
      else if c = 'G' then 4 else if c = 'T' then 5 else 0 := by
  have h : init_encoding encoding_zero = some
      (Function.update (Function.update (Function.update (Function.update
        (Function.update encoding_zero 'A' 1) 'C' 2) 'N' 3) 'G' 4) 'T' 5) := by
    rfl
  unfold encoding
  rw [h]
  simp only [Function.update, encoding_zero, eq_rec_constant, dite_eq_ite]
  by_cases hT : c = 'T'
  · subst hT; decide
  by_cases hG : c = 'G'
  · subst hG; decide
  by_cases hN : c = 'N'
  · subst hN; decide
  by_cases hC : c = 'C'
  · subst hC; decide
  by_cases hA : c = 'A'
  · subst hA; decide
  simp [hT, hG, hN, hC, hA]

theorem laneOf_le (c : Char) : laneOf c ≤ 5 := by
  unfold laneOf; rw [encoding_eq]; split_ifs <;> decide

theorem encoding_cast (c : Char) : encoding c = (laneOf c : Int) := by
  unfold laneOf; rw [encoding_eq]; split_ifs <;> rfl

theorem base_mask_eq : base_mask = 7 := by decide

theorem land_mask_lane (d : Nat) : Int.land (d : Int) base_mask = ((d % 8 : Nat) : Int) := by
  rw [base_mask_eq]
  show ((d &&& 7 : Nat) : Int) = _
  congr 1
  exact Nat.and_pow_two_sub_one_eq_mod d 3

theorem pack_append (ds : List Nat) (d : Nat) : pack (ds ++ [d]) = pack ds * 8 + d := by
  simp [pack, List.foldl_append]

theorem foldl_pack (A : Nat) (ds : List Nat) :
    ds.foldl (fun acc d => acc * 8 + d) A = A * 8 ^ ds.length + pack ds := by
  induction ds using List.reverseRecOn with
  | nil => simp [pack]
  | append_singleton ds d ih =>
    rw [List.foldl_append, pack_append, List.length_append]
    simp only [List.foldl_cons, List.foldl_nil, List.length_singleton]
    rw [ih]; ring

theorem pack_cons (d : Nat) (ds : List Nat) : pack (d :: ds) = d * 8 ^ ds.length + pack ds := by
  have := foldl_pack d ds
  simpa [pack] using this

theorem pack_lt (ds : List Nat) (h : ∀ d ∈ ds, d < 8) : pack ds < 8 ^ ds.length := by
  induction ds using List.reverseRecOn with
  | nil => simp [pack]
  | append_singleton ds d ih =>
    rw [pack_append, List.length_append, List.length_singleton, pow_succ]
    have h1 := ih (fun x hx => h x (List.mem_append_left _ hx))
    have h2 := h d (by simp)
    omega

theorem encode_loop_eq (len : Nat) (buf : Nat → Char) :
    ∀ (n i A : Nat), i + n = len →
      encode_loop len buf n i ((A * 8 ^ n : Nat) : Int) =
        (((List.range' i n).map (fun j => laneOf (buf j))).foldl
          (fun acc d => acc * 8 + d) A : Nat) := by
  intro n
  induction n with
  | zero => intro i A _; simp [encode_loop]
  | succ n ih =>
    intro i A h
    have hs : len - i - 1 = n := by omega
    simp only [encode_loop, List.range'_succ, List.map_cons, List.foldl_cons]
    rw [← ih (i + 1) (A * 8 + laneOf (buf i)) (by omega)]
    congr 1
    rw [encoding_cast, land_mask_lane, hs, Int.shiftLeft_coe_nat]
    show ((_ ||| _ : Nat) : Int) = _
    congr 1
    have hl : laneOf (buf i) % 8 = laneOf (buf i) :=
      Nat.mod_eq_of_lt (by have := laneOf_le (buf i); omega)
    rw [hl, Nat.shiftLeft_eq, bits_per_base]
    have hp : (2:Nat) ^ (3 * n) = 8 ^ n := by rw [pow_mul]; norm_num
    have hb : laneOf (buf i) * 2 ^ (3 * n) < 2 ^ (3 * n + 3) := by
      have := laneOf_le (buf i)
      rw [pow_add]; 
      have : 0 < 2 ^ (3 * n) := by positivity
      nlinarith
    have key := Nat.mul_add_lt_is_or hb A
    have hq : (2:Nat) ^ (3 * n + 3) = 8 ^ n * 8 := by rw [pow_add, hp]; norm_num
    have e1 : A * 8 ^ (n + 1) = 2 ^ (3 * n + 3) * A := by
      rw [hq, pow_succ]; ring
    rw [e1, ← key, hq, hp]; ring

theorem encode_eq_pack (len : Nat) (buf : Nat → Char) :
    encode len buf = (pack ((readN buf len).map laneOf) : Nat) := by
  have := encode_loop_eq len buf len 0 0 (by simp)
  simp only [zero_mul, Nat.cast_zero] at this
  unfold encode
  rw [this, pack, readN, List.range_eq_range', List.map_map]
  rfl

theorem pack_append_list (a b : List Nat) : pack (a ++ b) = pack a * 8 ^ b.length + pack b := by
  rw [pack, List.foldl_append, foldl_pack]; rfl

theorem laneOf_base {c : Char} (h : IsBase c) : 1 ≤ laneOf c ∧ laneOf c ≤ 5 := by
  rcases h with h | h | h | h | h <;> subst h <;> decide

theorem baseChar_laneOf {c : Char} (h : IsBase c) : baseChar (laneOf c) = c := by
  rcases h with h | h | h | h | h <;> subst h <;> decide

theorem base_for_bitcode_lane (d : Nat) (h1 : 1 ≤ d) (h5 : d ≤ 5) :
    base_for_bitcode (d : Int) = some (baseChar d) := by
  interval_cases d <;> rfl

theorem lane_extract (a b : List Nat) (d : Nat) (hd : d < 8) (hb : ∀ x ∈ b, x < 8) :
    Int.land (((pack (a ++ d :: b) : Nat) : Int) >>> (bits_per_base * b.length)) base_mask
      = (d : Int) := by
  have e : ((pack (a ++ d :: b) : Nat) : Int) >>> (bits_per_base * b.length)
      = ((pack (a ++ d :: b) >>> (bits_per_base * b.length) : Nat) : Int) := rfl
  rw [e, land_mask_lane, Nat.shiftRight_eq_div_pow, bits_per_base]
  congr 1
  have hp : (2:Nat) ^ (3 * b.length) = 8 ^ b.length := by rw [pow_mul]; norm_num
  have hl := pack_lt b hb
  rw [hp, show a ++ d :: b = (a ++ [d]) ++ b by simp, pack_append_list, pack_append]
  have hpos : 0 < 8 ^ b.length := by positivity
  rw [Nat.add_div_of_dvd_right (Dvd.intro_left _ rfl), Nat.mul_div_cancel _ hpos,
    Nat.div_eq_of_lt hl]
  omega

theorem decode_loop_pack (b : List Nat) :
    ∀ a : List Nat, (∀ d ∈ b, 1 ≤ d ∧ d ≤ 5) →
      decode_loop (a.length + b.length) ((pack (a ++ b) : Nat) : Int) b.length a.length
        = some (b.map baseChar) := by
  induction b with
  | nil => intro a _; simp [decode_loop]
  | cons d b ih =>
    intro a h
    have hd := h d (by simp)
    have hb : ∀ x ∈ b, 1 ≤ x ∧ x ≤ 5 := fun x hx => h x (by simp [hx])
    have hs : a.length + (d :: b).length - a.length - 1 = b.length := by simp
    have hrec := ih (a ++ [d]) hb
    have e1 : (a ++ [d]).length + b.length = a.length + (d :: b).length := by
      simp; omega
    have e2 : a ++ [d] ++ b = a ++ d :: b := by simp
    rw [e1, e2, List.length_append, List.length_singleton] at hrec
    simp only [List.length_cons, decode_loop, List.map_cons]
    simp only [List.length_cons] at hs hrec
    rw [hs, lane_extract a b d (by omega) (fun x hx => by have := hb x hx; omega),
      base_for_bitcode_lane d hd.1 hd.2]
    simp only [hrec]

theorem decode_pack (ds : List Nat) (h : ∀ d ∈ ds, 1 ≤ d ∧ d ≤ 5) :
    decode ds.length ((pack ds : Nat) : Int) = some (ds.map baseChar) := by
  have := decode_loop_pack ds [] h
  simpa [decode] using this

theorem readN_ptr (s : List Char) : readN (ptr s) s.length = s := by
  apply List.ext_getElem
  · simp [readN]
  · intro i h1 h2
    simp [readN, ptr, List.getD_eq_getElem?_getD, List.getElem?_eq_getElem h2]

theorem complement_mask_eq : complement_mask = ((pack (List.replicate (k - 3) 6) : Nat) : Int) := by
  decide

theorem pack_replicate_six (ds : List Nat) (h : ∀ d ∈ ds, d ≤ 6) :
    pack ds + pack (ds.map (fun d => 6 - d)) = pack (List.replicate ds.length 6) := by
  induction ds with
  | nil => rfl
  | cons d ds ih =>
    have hd := h d (by simp)
    have := ih (fun x hx => h x (by simp [hx]))
    simp only [List.map_cons, List.length_cons, List.replicate_succ, pack_cons,
      List.length_map, List.length_replicate]
    have e : d * 8 ^ ds.length + (6 - d) * 8 ^ ds.length = 6 * 8 ^ ds.length := by
      rw [← Nat.add_mul]; congr 1; omega
    omega

theorem complement_pack (ds : List Nat) (hl : ds.length = k - 3) (h : ∀ d ∈ ds, d ≤ 6) :
    complement ((pack ds : Nat) : Int) = ((pack (ds.map (fun d => 6 - d)) : Nat) : Int) := by
  have := pack_replicate_six ds h
  rw [hl] at this
  rw [complement, complement_mask_eq, ← this]
  push_cast; ring

theorem baseChar_comp {c : Char} (h : IsBase c) : baseChar (6 - laneOf c) = comp_base c := by
  rcases h with h | h | h | h | h <;> subst h <;> decide

theorem lane_pack (ds : List Nat) (h : ∀ d ∈ ds, d < 8) (i : Nat) (hi : i < ds.length) :
    lane ds.length ((pack ds : Nat) : Int) i = ((ds.getD i 0 : Nat) : Int) := by
  have hsplit : ds = ds.take i ++ ds[i] :: ds.drop (i + 1) := by
    rw [← List.drop_eq_getElem_cons hi, List.take_append_drop]
  have hb : (ds.drop (i + 1)).length = ds.length - i - 1 := by simp; omega
  have key := lane_extract (ds.take i) (ds.drop (i + 1)) ds[i]
    (h _ (List.getElem_mem _)) (fun x hx => h x (List.mem_of_mem_drop hx))
  rw [← hsplit, hb] at key
  rw [lane, key, List.getD_eq_getElem?_getD, List.getElem?_eq_getElem hi]
  rfl

theorem encode_ptr (s : List Char) :
    encode s.length (ptr s) = ((pack (s.map laneOf) : Nat) : Int) := by
  rw [encode_eq_pack, readN_ptr]

theorem init_encoding_ok : init_encoding encoding_zero = some encoding := by
  rfl

theorem decode_encode_ptr (s : List Char) (hlen : s.length = k - 3)
    (hs : ∀ c ∈ s, IsBase c) : decode (k - 3) (encode (k - 3) (ptr s)) = some s := by
  have h := decode_pack (s.map laneOf) (by
    intro d hd
    obtain ⟨c, hc, rfl⟩ := List.mem_map.1 hd
    exact laneOf_base (hs c hc))
  rw [List.length_map, hlen] at h
  rw [← hlen, encode_ptr, hlen, h, List.map_map]
  congr 1
  calc s.map (baseChar ∘ laneOf) = s.map id :=
        List.map_congr_left (fun c hc => baseChar_laneOf (hs c hc))
    _ = s := List.map_id s

theorem decode_complement_ptr (s : List Char) (hlen : s.length = k - 3)
    (hs : ∀ c ∈ s, IsBase c) :
    decode (k - 3) (complement (encode (k - 3) (ptr s))) = some (s.map comp_base) := by
  have hl : (s.map laneOf).length = k - 3 := by rw [List.length_map, hlen]
  have h6 : ∀ d ∈ s.map laneOf, d ≤ 6 := by
    intro d hd
    obtain ⟨c, -, rfl⟩ := List.mem_map.1 hd
    have := laneOf_le c; omega
  have hc := complement_pack (s.map laneOf) hl h6
  have he : encode (k - 3) (ptr s) = ((pack (s.map laneOf) : Nat) : Int) := by
    rw [← hlen, encode_ptr]
  have hd := decode_pack ((s.map laneOf).map (fun d => 6 - d)) (by
    intro d hd
    obtain ⟨e, he, rfl⟩ := List.mem_map.1 hd
    obtain ⟨c, hc, rfl⟩ := List.mem_map.1 he
    have := laneOf_base (hs c hc)
    omega)
  rw [List.length_map, hl] at hd
  rw [he, hc, hd, List.map_map, List.map_map]
  congr 1
  exact List.map_congr_left (fun c hc => baseChar_comp (hs c hc))

/-- C8 (round trip): once `init_encoding` has run, for every string `s` of length `k-3`
over {A,C,G,T,N}, `decode(k-3, encode<k-3>(s))` hits no assertion and writes back exactly
`s`. -/
theorem decode_encode_roundtrip (s : List Char) (hlen : s.length = k - 3)
    (hs : ∀ c ∈ s, IsBase c) :
    init_encoding encoding_zero = some encoding ∧
      decode (k - 3) (encode (k - 3) (ptr s)) = some s :=
  ⟨init_encoding_ok, decode_encode_ptr s hlen hs⟩

theorem decode_encode_roundtrip_witness :
    ("ACGTGGTGGCAATNCACGGN".toList.length = k - 3 ∧
      ∀ c ∈ "ACGTGGTGGCAATNCACGGN".toList, IsBase c) ∧
    decode (k - 3) (encode (k - 3) (ptr "ACGTGGTGGCAATNCACGGN".toList))
      = some "ACGTGGTGGCAATNCACGGN".toList :=
  ⟨⟨by decide, by decide⟩,
    (decode_encode_roundtrip "ACGTGGTGGCAATNCACGGN".toList (by decide) (by decide)).2⟩

/-- C9 (complement by one subtraction): for every string `s` of length `k-3` over
{A,C,G,T,N}, `complement(encode(s))` is `complement_mask - encode(s)`, each of its lanes is
6 minus the same lane of `encode(s)`, and it decodes to `s` with every base replaced by
its complement in the same position. -/
theorem complement_encode_lanes (s : List Char) (hlen : s.length = k - 3)
    (hs : ∀ c ∈ s, IsBase c) :
    complement (encode (k - 3) (ptr s)) = complement_mask - encode (k - 3) (ptr s) ∧
    (∀ i, i < k - 3 →
      lane (k - 3) (complement (encode (k - 3) (ptr s))) i
        = 6 - lane (k - 3) (encode (k - 3) (ptr s)) i) ∧
    decode (k - 3) (complement (encode (k - 3) (ptr s))) = some (s.map comp_base) := by
  have hl : (s.map laneOf).length = k - 3 := by rw [List.length_map, hlen]
  have h6 : ∀ d ∈ s.map laneOf, d ≤ 6 := by
    intro d hd
    obtain ⟨c, -, rfl⟩ := List.mem_map.1 hd
    have := laneOf_le c; omega
  have hc := complement_pack (s.map laneOf) hl h6
  have he : encode (k - 3) (ptr s) = ((pack (s.map laneOf) : Nat) : Int) := by
    rw [← hlen, encode_ptr]
  refine ⟨rfl, ?_, ?_⟩
  · intro i hi
    have hl2 : ((s.map laneOf).map (fun d => 6 - d)).length = k - 3 := by
      rw [List.length_map, hl]
    have a1 := lane_pack ((s.map laneOf).map (fun d => 6 - d)) (by
      intro d hd
      obtain ⟨e, -, rfl⟩ := List.mem_map.1 hd
      omega) i (by rw [hl2]; exact hi)
    have a2 := lane_pack (s.map laneOf) (fun d hd => by have := h6 d hd; omega) i
      (by rw [hl]; exact hi)
    rw [hl2] at a1
    rw [hl] at a2
    rw [he, hc, a1, a2]
    have hi1 : i < (s.map laneOf).length := by rw [hl]; exact hi
    have hi2 : i < ((s.map laneOf).map (fun d => 6 - d)).length := by rw [hl2]; exact hi
    rw [List.getD_eq_getElem?_getD, List.getD_eq_getElem?_getD,
      List.getElem?_eq_getElem hi1, List.getElem?_eq_getElem hi2]
    simp only [Option.getD_some, List.getElem_map]
    have hi3 : i < s.length := by rw [hlen]; exact hi
    have := laneOf_le s[i]
    omega
  · exact decode_complement_ptr s hlen hs

theorem complement_encode_lanes_witness :
    ("ACGTGGTGGCAATGCACGGT".toList.length = k - 3 ∧
      ∀ c ∈ "ACGTGGTGGCAATGCACGGT".toList, IsBase c) ∧
    decode (k - 3) (complement (encode (k - 3) (ptr "ACGTGGTGGCAATGCACGGT".toList)))
      = some "TGCACCACCGTTACGTGCCA".toList :=
  ⟨⟨by decide, by decide⟩,
    (complement_encode_lanes "ACGTGGTGGCAATGCACGGT".toList (by decide) (by decide)).2.2.trans
      (by decide)⟩

/-! ## Motif matcher -/

theorem guide_loop_count (direction : Bool) (bufi : Nat → Char) (ch : Char) :
    ∀ (n j : Nat) (g : Nat → Char) (c : Char → Int),
      (guide_loop direction bufi n j g c).2 ch
        = c ch + (((List.range' j n).map (fun x => bufi (index direction x))).count ch : Nat) := by
  intro n
  induction n with
  | zero => intro j g c; simp [guide_loop]
  | succ n ih =>
    intro j g c
    simp only [guide_loop, List.range'_succ, List.map_cons, List.count_cons]
    rw [ih]
    by_cases h : bufi (index direction j) = ch
    · subst h; simp [bump]; ring
    · simp [bump, Function.update_apply, h, Ne.symm h]

theorem guide_loop_guide (direction : Bool) (bufi : Nat → Char) :
    ∀ (n j : Nat) (g : Nat → Char) (c : Char → Int) (x : Nat),
      (guide_loop direction bufi n j g c).1 x
        = if j ≤ x ∧ x < j + n then bufi (index direction x) else g x := by
  intro n
  induction n with
  | zero => intro j g c x; simp only [guide_loop]; rw [if_neg (by omega)]
  | succ n ih =>
    intro j g c x
    simp only [guide_loop]
    rw [ih]
    by_cases h1 : x = j
    · subst h1; simp [store]
    · simp only [store, h1, if_false]
      by_cases h2 : j + 1 ≤ x ∧ x < j + 1 + n
      · rw [if_pos h2, if_pos (by omega)]
      · rw [if_neg h2, if_neg (by omega)]

theorem readN_guide_loop (direction : Bool) (bufi : Nat → Char) (g : Nat → Char)
    (c : Char → Int) :
    readN (guide_loop direction bufi (k - 3) 0 g c).1 (k - 3) = guideOf direction bufi := by
  unfold readN guideOf
  apply List.map_congr_left
  intro x hx
  rw [guide_loop_guide]
  have := List.mem_range.1 hx
  rw [if_pos (by omega)]

theorem bump_apply (count : Char → Int) (x y : Char) :
    bump count x y = count y + (if x = y then 1 else 0) := by
  unfold bump
  by_cases h : x = y
  · subst h; simp
  · simp [Function.update_apply, h, Ne.symm h]

theorem count_init (cog y : Char) :
    Function.update (Function.update (fun _ => (0 : Int)) cog 0) 'N' 0 y = 0 := by
  simp [Function.update_apply]

theorem count_pair (p0 p1 ch : Char) :
    (([p0, p1].count ch : Nat) : Int) = (if p0 = ch then 1 else 0) + (if p1 = ch then 1 else 0) := by
  by_cases a : p0 = ch <;> by_cases b : p1 = ch <;> simp [List.count_cons, a, b]

theorem pam_counts (direction : Bool) (cog : Char) (bufi : Nat → Char) (hcog : cog ≠ 'N') :
    let count : Char → Int := bump (bump (Function.update (Function.update (fun _ => 0) cog 0) 'N' 0)
      (bufi (index (!direction) 0))) (bufi (index (!direction) 1))
    count 'N' = countN (pamOf direction bufi) ∧
      (count cog + count 'N' = 2 ↔ pamPresent direction cog bufi) := by
  intro count
  have hN : count 'N' = countN (pamOf direction bufi) := by
    simp only [count, bump_apply, count_init, countN, pamOf, count_pair, zero_add]
  have hC : count cog = ((pamOf direction bufi).count cog : Nat) := by
    simp only [count, bump_apply, count_init, pamOf, count_pair, zero_add]
  refine ⟨hN, ?_⟩
  rw [hN, hC]
  simp only [pamPresent, pamOf, countN, count_pair, List.mem_cons, List.mem_singleton,
    forall_eq_or_imp, forall_eq, List.not_mem_nil, IsEmpty.forall_iff, implies_true, and_true]
  generalize bufi (index (!direction) 0) = p0
  generalize bufi (index (!direction) 1) = p1
  have hcog2 : 'N' ≠ cog := Ne.symm hcog
  by_cases a : p0 = cog <;> by_cases b : p1 = cog <;> by_cases c : p0 = 'N' <;>
    by_cases d : p1 = 'N' <;> simp [a, b, c, d] <;> first | omega | (subst_vars; simp_all)

theorem encode_congr (len : Nat) (b b' : Nat → Char) (h : ∀ x, x < len → b x = b' x) :
    encode len b = encode len b' := by
  rw [encode_eq_pack, encode_eq_pack]
  have e : readN b len = readN b' len :=
    List.map_congr_left (fun x hx => h x (List.mem_range.1 hx))
  rw [e]

theorem emit_congr (direction : Bool) (results : List Int) (g g' : Nat → Char)
    (h : ∀ x, x < k - 3 → g x = g' x) : emit direction results g = emit direction results g' := by
  unfold emit
  rw [encode_congr (k - 3) g g' h]

theorem variant_loop_congr (g g' : Nat → Char) (n_code : Int) :
    ∀ (pos code_pos : Nat) (gv : Nat → Char), (∀ x, x < pos → g x = g' x) →
      variant_loop g n_code pos code_pos gv = variant_loop g' n_code pos code_pos gv := by
  intro pos
  induction pos with
  | zero => intro cp gv _; rfl
  | succ pos ih =>
    intro cp gv h
    simp only [variant_loop]
    rw [h pos (by omega)]
    split
    · exact ih _ _ (fun x hx => h x (by omega))
    · exact ih _ _ (fun x hx => h x (by omega))

theorem variants_loop_congr (direction : Bool) (g g' : Nat → Char)
    (h : ∀ x, x < k - 3 → g x = g' x) :
    ∀ (n : Nat) (n_code : Int) (results : List Int),
      variants_loop direction g n n_code results = variants_loop direction g' n n_code results := by
  intro n
  induction n with
  | zero => intro _ _; rfl
  | succ n ih =>
    intro n_code results
    simp only [variants_loop]
    rw [variant_loop_congr g g' n_code (k - 3) 0 _ h, ih]

theorem emit_all_variants_congr (direction : Bool) (results : List Int) (g g' : Nat → Char)
    (num : Int) (h : ∀ x, x < k - 3 → g x = g' x) :
    emit_all_variants direction results g num = emit_all_variants direction results g' num := by
  unfold emit_all_variants
  exact variants_loop_congr direction g g' h _ _ _

theorem ptr_guideOf (direction : Bool) (bufi : Nat → Char) (x : Nat) (hx : x < k - 3) :
    ptr (guideOf direction bufi) x = bufi (index direction x) := by
  unfold ptr guideOf
  rw [List.getD_eq_getElem?_getD, List.getElem?_map, List.getElem?_range hx]
  rfl

theorem try_match_eq (direction : Bool) (cog : Char) (results : List Int)
    (bufi : Nat → Char) (hcog : cog ≠ 'N') :
    try_match direction cog results bufi =
      if pamPresent direction cog bufi then
        if countN (pamOf direction bufi) + countN (guideOf direction bufi) ≤ max_N then
          if countN (guideOf direction bufi) > 0 then
            emit_all_variants direction results (ptr (guideOf direction bufi))
              (countN (guideOf direction bufi))
          else emit direction results (ptr (guideOf direction bufi))
        else results
      else results := by
  obtain ⟨hN, hpam⟩ := pam_counts direction cog bufi hcog
  unfold try_match
  by_cases hp : pamPresent direction cog bufi
  · rw [if_pos (hpam.2 hp), if_pos hp]
    have hg : ∀ x, x < k - 3 →
        (guide_loop direction bufi (k - 3) 0 (fun _ => Char.ofNat 0)
          (bump (bump (Function.update (Function.update (fun _ => 0) cog 0) 'N' 0)
            (bufi (index (!direction) 0))) (bufi (index (!direction) 1)))).1 x
          = ptr (guideOf direction bufi) x := by
      intro x hx
      rw [guide_loop_guide, if_pos (by omega), ptr_guideOf direction bufi x hx]
    have hc := guide_loop_count direction bufi 'N' (k - 3) 0 (fun _ => Char.ofNat 0)
      (bump (bump (Function.update (Function.update (fun _ => 0) cog 0) 'N' 0)
        (bufi (index (!direction) 0))) (bufi (index (!direction) 1)))
    rw [← List.range_eq_range', hN] at hc
    have hc2 : (guide_loop direction bufi (k - 3) 0 (fun _ => Char.ofNat 0)
        (bump (bump (Function.update (Function.update (fun _ => 0) cog 0) 'N' 0)
          (bufi (index (!direction) 0))) (bufi (index (!direction) 1)))).2 'N'
        = countN (pamOf direction bufi) + countN (guideOf direction bufi) := hc
    have e : countN (pamOf direction bufi) + countN (guideOf direction bufi)
        - countN (pamOf direction bufi) = countN (guideOf direction bufi) := by ring
    simp only [hc2, hN, e]
    by_cases hb : countN (pamOf direction bufi) + countN (guideOf direction bufi) ≤ max_N
    · rw [if_pos hb, if_pos hb]
      by_cases hz : countN (guideOf direction bufi) > 0
      · rw [if_pos hz, if_pos (by simp [expand_N_variants, hz])]
        exact emit_all_variants_congr _ _ _ _ _ hg
      · rw [if_neg hz, if_neg (by simp [expand_N_variants, hz])]
        exact emit_congr _ _ _ _ hg
    · rw [if_neg hb, if_neg hb]
  · rw [if_neg (fun h => hp (hpam.1 h)), if_neg hp]

theorem countN_nonneg (l : List Char) : 0 ≤ countN l := by
  unfold countN; exact Int.ofNat_nonneg _

theorem countN_eq_zero {l : List Char} (h : 'N' ∉ l) : countN l = 0 := by
  unfold countN; rw [List.count_eq_zero.2 h]; rfl

theorem countN_pam_le (direction : Bool) (bufi : Nat → Char) :
    countN (pamOf direction bufi) ≤ 2 := by
  unfold countN
  have := List.count_le_length 'N' (pamOf direction bufi)
  simp only [pamOf, List.length_cons, List.length_nil] at this
  exact_mod_cast this

theorem guideOf_forward (bufi : Nat → Char) :
    guideOf forward_direction bufi = readN bufi (k - 3) := by
  unfold guideOf readN
  apply List.map_congr_left
  intro x _
  simp [index]

theorem guideOf_reverse (bufi : Nat → Char) :
    guideOf reverse_complement bufi = ((readN bufi k).drop 3).reverse := by
  apply List.ext_getElem
  · simp [guideOf, readN, k]
  · intro i h1 h2
    have hi : i < 20 := by simpa [guideOf, k] using h1
    simp only [guideOf, readN, List.getElem_map, List.getElem_range, List.getElem_reverse,
      List.getElem_drop, List.length_drop, List.length_map, List.length_range, index,
      reverse_complement, forward_direction, k]
    congr 1
    simp
    omega

theorem pamPresent_forward (bufi : Nat → Char) :
    pamPresent forward_direction 'G' bufi ↔
      (bufi (k - 2) = 'G' ∨ bufi (k - 2) = 'N') ∧ (bufi (k - 1) = 'G' ∨ bufi (k - 1) = 'N') := by
  simp [pamPresent, pamOf, index, forward_direction, k]
  tauto

theorem pamPresent_reverse (bufi : Nat → Char) :
    pamPresent reverse_complement 'C' bufi ↔
      (bufi 0 = 'C' ∨ bufi 0 = 'N') ∧ (bufi 1 = 'C' ∨ bufi 1 = 'N') := by
  simp [pamPresent, pamOf, index, forward_direction, reverse_complement]

theorem mem_readN_of_le {bufi : Nat → Char} {n m : Nat} (h : n ≤ m) {c : Char}
    (hc : c ∈ readN bufi n) : c ∈ readN bufi m := by
  unfold readN at *
  obtain ⟨x, hx, rfl⟩ := List.mem_map.1 hc
  exact List.mem_map.2 ⟨x, List.mem_range.2 (lt_of_lt_of_le (List.mem_range.1 hx) h), rfl⟩

/-- C4 (forward match): for every window of `k` bases over {A,C,G,T,N} whose first `k-3`
bases contain no N, `try_match<forward_direction,'G'>` appends a code if and only if both
`w[k-2]` and `w[k-1]` are 'G' or 'N'; it then appends exactly one code, which decodes to
the first `k-3` bases of the window.  (With an N-free guide the two PAM positions can
never exceed the budget, so the budget hypothesis of the claim is not needed.) -/
theorem forward_match (results : List Int) (bufi : Nat → Char)
    (halpha : ∀ c ∈ readN bufi k, IsBase c)
    (hguide : 'N' ∉ readN bufi (k - 3)) :
    ((bufi (k - 2) = 'G' ∨ bufi (k - 2) = 'N') ∧ (bufi (k - 1) = 'G' ∨ bufi (k - 1) = 'N') →
      ∃ code, try_match forward_direction 'G' results bufi = results ++ [code] ∧
        decode (k - 3) code = some (readN bufi (k - 3))) ∧
    (¬ ((bufi (k - 2) = 'G' ∨ bufi (k - 2) = 'N') ∧ (bufi (k - 1) = 'G' ∨ bufi (k - 1) = 'N')) →
      try_match forward_direction 'G' results bufi = results) := by
  have hm := try_match_eq forward_direction 'G' results bufi (by decide)
  have hg0 : countN (guideOf forward_direction bufi) = 0 := by
    rw [guideOf_forward]; exact countN_eq_zero hguide
  constructor
  · intro hp
    have hb : countN (pamOf forward_direction bufi) + countN (guideOf forward_direction bufi)
        ≤ max_N := by
      rw [hg0, add_zero]; exact countN_pam_le _ _
    rw [if_pos ((pamPresent_forward bufi).2 hp), if_pos hb, if_neg (by rw [hg0]; decide),
      guideOf_forward] at hm
    refine ⟨encode (k - 3) (ptr (readN bufi (k - 3))), ?_, ?_⟩
    · rw [hm]; rfl
    · exact decode_encode_ptr _ (by simp [readN])
        (fun c hc => halpha c (mem_readN_of_le (by decide) hc))
  · intro hp
    rw [if_neg (fun h => hp ((pamPresent_forward bufi).1 h))] at hm
    exact hm

theorem forward_match_witness :
    ((∀ c ∈ readN (ptr "ACGTGGTGGCAATGCACGGTANG".toList) k, IsBase c) ∧
      'N' ∉ readN (ptr "ACGTGGTGGCAATGCACGGTANG".toList) (k - 3)) ∧
    ∃ code, try_match forward_direction 'G' [] (ptr "ACGTGGTGGCAATGCACGGTANG".toList)
        = [] ++ [code] ∧
      decode (k - 3) code = some (readN (ptr "ACGTGGTGGCAATGCACGGTANG".toList) (k - 3)) :=
  ⟨⟨by decide, by decide⟩,
    (forward_match [] (ptr "ACGTGGTGGCAATGCACGGTANG".toList) (by decide) (by decide)).1
      (by decide)⟩

/-- C5 (reverse match): for every window of `k` bases over {A,C,G,T,N} whose last `k-3`
bases contain no N, `try_match<reverse_complement,'C'>` appends a code if and only if
both `w[0]` and `w[1]` are 'C' or 'N'; it then appends exactly one code,
`complement(encode(w[k-1], ..., w[3]))`, which decodes to the reverse complement of the
last `k-3` bases.  (With an N-free guide the two PAM positions can never exceed the
budget, so the budget hypothesis of the claim is not needed.) -/
theorem reverse_match (results : List Int) (bufi : Nat → Char)
    (halpha : ∀ c ∈ readN bufi k, IsBase c)
    (hguide : 'N' ∉ (readN bufi k).drop 3) :
    ((bufi 0 = 'C' ∨ bufi 0 = 'N') ∧ (bufi 1 = 'C' ∨ bufi 1 = 'N') →
      try_match reverse_complement 'C' results bufi
          = results ++ [complement (encode (k - 3) (ptr ((readN bufi k).drop 3).reverse))] ∧
        decode (k - 3) (complement (encode (k - 3) (ptr ((readN bufi k).drop 3).reverse)))
          = some ((((readN bufi k).drop 3).reverse).map comp_base)) ∧
    (¬ ((bufi 0 = 'C' ∨ bufi 0 = 'N') ∧ (bufi 1 = 'C' ∨ bufi 1 = 'N')) →
      try_match reverse_complement 'C' results bufi = results) := by
  have hm := try_match_eq reverse_complement 'C' results bufi (by decide)
  have hg0 : countN (guideOf reverse_complement bufi) = 0 := by
    rw [guideOf_reverse]
    exact countN_eq_zero (fun h => hguide (List.mem_reverse.1 h))
  constructor
  · intro hp
    have hb : countN (pamOf reverse_complement bufi)
        + countN (guideOf reverse_complement bufi) ≤ max_N := by
      rw [hg0, add_zero]; exact countN_pam_le _ _
    rw [if_pos ((pamPresent_reverse bufi).2 hp), if_pos hb, if_neg (by rw [hg0]; decide),
      guideOf_reverse] at hm
    refine ⟨by rw [hm]; rfl, ?_⟩
    exact decode_complement_ptr _ (by simp [readN, k])
      (fun c hc => halpha c (List.mem_of_mem_drop (List.mem_reverse.1 hc)))
  · intro hp
    rw [if_neg (fun h => hp ((pamPresent_reverse bufi).1 h))] at hm
    exact hm

theorem reverse_match_witness :
    ((∀ c ∈ readN (ptr "CNAACGTGGTGGCAATGCACGGT".toList) k, IsBase c) ∧
      'N' ∉ (readN (ptr "CNAACGTGGTGGCAATGCACGGT".toList) k).drop 3) ∧
    try_match reverse_complement 'C' [] (ptr "CNAACGTGGTGGCAATGCACGGT".toList)
        = [] ++ [complement (encode (k - 3) (ptr "TGGCACGTAACGGTGGTGCA".toList))] ∧
    decode (k - 3) (complement (encode (k - 3) (ptr "TGGCACGTAACGGTGGTGCA".toList)))
        = some "ACCGTGCATTGCCACCACGT".toList :=
  ⟨⟨by decide, by decide⟩,
    (reverse_match [] (ptr "CNAACGTGGTGGCAATGCACGGT".toList) (by decide) (by decide)).1
      (by decide)⟩

theorem emit_eq (direction : Bool) (results : List Int) (guide : Nat → Char) :
    emit direction results guide = results ++ [emit_code direction guide] := rfl

theorem variants_loop_eq (direction : Bool) (guide : Nat → Char) :
    ∀ (n : Nat) (n_code : Int) (results : List Int),
      variants_loop direction guide n n_code results =
        results ++ (List.range n).map
          (fun i => emit_code direction (variant guide (n_code + (i : Nat)))) := by
  intro n
  induction n with
  | zero => intro _ _; simp [variants_loop]
  | succ n ih =>
    intro n_code results
    have h0 : emit_code direction (variant_loop guide n_code (k - 3) 0 (fun _ => Char.ofNat 0))
        = emit_code direction (variant guide (n_code + ((0 : Nat) : Int))) := by
      rw [Nat.cast_zero, add_zero, variant]
    have hmap : (List.range n).map
          (fun i => emit_code direction (variant guide (n_code + 1 + (i : Nat))))
        = (List.range n).map ((fun i : Nat => emit_code direction
            (variant guide (n_code + (i : Nat)))) ∘ Nat.succ) := by
      apply List.map_congr_left
      intro i _
      simp only [Function.comp]
      rw [show n_code + 1 + (i : Int) = n_code + ((i.succ : Nat) : Int) by push_cast; ring]
    simp only [variants_loop]
    rw [ih, emit_eq, List.append_assoc, List.range_succ_eq_map, List.map_cons, List.map_map,
      List.singleton_append, h0, hmap]

theorem emit_all_variants_eq (direction : Bool) (results : List Int) (guide : Nat → Char)
    (num : Int) :
    emit_all_variants direction results guide num =
      results ++ (List.range (int32 ((1 : Int) <<< (2 * num))).toNat).map
        (fun i => emit_code direction (variant guide ((i : Nat) : Int))) := by
  unfold emit_all_variants
  rw [variants_loop_eq]
  simp

theorem try_match_budget (direction : Bool) (cog : Char) (results : List Int)
    (bufi : Nat → Char) (hcog : cog ≠ 'N') :
    (max_N < countN (pamOf direction bufi) + countN (guideOf direction bufi) →
      try_match direction cog results bufi = results) ∧
    (pamPresent direction cog bufi →
      countN (pamOf direction bufi) + countN (guideOf direction bufi) ≤ max_N →
      ∃ code rest, try_match direction cog results bufi = results ++ code :: rest ∧
        rest.length + 1 = 4 ^ (guideOf direction bufi).count 'N') := by
  have hm := try_match_eq direction cog results bufi hcog
  constructor
  · intro h
    rw [hm, if_neg (not_le.2 h)]
    simp
  · intro hp hb
    rw [if_pos hp, if_pos hb] at hm
    have hp0 := countN_nonneg (pamOf direction bufi)
    by_cases hz : countN (guideOf direction bufi) > 0
    · rw [if_pos hz, emit_all_variants_eq] at hm
      have h12 : (guideOf direction bufi).count 'N' = 1 ∨ (guideOf direction bufi).count 'N' = 2 := by
        unfold countN max_N at *
        omega
      rcases h12 with h1 | h1
      · have e : int32 ((1 : Int) <<< (2 * countN (guideOf direction bufi))) = 4 := by
          unfold countN; rw [h1]; decide
        rw [e] at hm
        exact ⟨_, _, hm, by rw [h1]; simp⟩
      · have e : int32 ((1 : Int) <<< (2 * countN (guideOf direction bufi))) = 16 := by
          unfold countN; rw [h1]; decide
        rw [e] at hm
        exact ⟨_, _, hm, by rw [h1]; simp⟩
    · rw [if_neg hz, emit_eq] at hm
      have h0 : (guideOf direction bufi).count 'N' = 0 := by
        unfold countN at hz; omega
      exact ⟨_, [], hm, by rw [h0]; rfl⟩

theorem countN_pamOf_forward (bufi : Nat → Char) :
    countN (pamOf forward_direction bufi) = countN [bufi (k - 2), bufi (k - 1)] := by
  simp only [countN, pamOf, count_pair]
  rw [add_comm]
  rfl

theorem countN_pamOf_reverse (bufi : Nat → Char) :
    countN (pamOf reverse_complement bufi) = countN [bufi 0, bufi 1] := rfl

/-- C6 (budget enforcement): for every window of `k` characters and either orientation, if
the number of N at the two PAM positions plus the number of N at the `k-3` guide
positions exceeds `max_N`, `try_match` appends nothing; if the PAM is present and that
total is at most `max_N`, it appends at least one code, `4^g` of them for `g` wildcards in
the guide, so an N at a PAM position counts against the budget but is not expanded. -/
theorem budget_enforcement (results : List Int) (bufi : Nat → Char) :
    ((max_N < countN [bufi (k - 2), bufi (k - 1)] + countN (readN bufi (k - 3)) →
        try_match forward_direction 'G' results bufi = results) ∧
      ((bufi (k - 2) = 'G' ∨ bufi (k - 2) = 'N') ∧ (bufi (k - 1) = 'G' ∨ bufi (k - 1) = 'N') →
        countN [bufi (k - 2), bufi (k - 1)] + countN (readN bufi (k - 3)) ≤ max_N →
        ∃ code rest, try_match forward_direction 'G' results bufi = results ++ code :: rest ∧
          rest.length + 1 = 4 ^ (readN bufi (k - 3)).count 'N')) ∧
    ((max_N < countN [bufi 0, bufi 1] + countN ((readN bufi k).drop 3) →
        try_match reverse_complement 'C' results bufi = results) ∧
      ((bufi 0 = 'C' ∨ bufi 0 = 'N') ∧ (bufi 1 = 'C' ∨ bufi 1 = 'N') →
        countN [bufi 0, bufi 1] + countN ((readN bufi k).drop 3) ≤ max_N →
        ∃ code rest, try_match reverse_complement 'C' results bufi = results ++ code :: rest ∧
          rest.length + 1 = 4 ^ ((readN bufi k).drop 3).count 'N')) := by
  have hf := try_match_budget forward_direction 'G' results bufi (by decide)
  have hr := try_match_budget reverse_complement 'C' results bufi (by decide)
  have er : countN (guideOf reverse_complement bufi) = countN ((readN bufi k).drop 3) := by
    rw [guideOf_reverse]; unfold countN; rw [List.count_reverse]
  have er2 : (guideOf reverse_complement bufi).count 'N' = ((readN bufi k).drop 3).count 'N' := by
    rw [guideOf_reverse, List.count_reverse]
  rw [countN_pamOf_forward, guideOf_forward, pamPresent_forward] at hf
  rw [countN_pamOf_reverse, er, er2, pamPresent_reverse] at hr
  exact ⟨hf, hr⟩

theorem budget_enforcement_witness :
    (max_N < countN [ptr "ACGTNGTGGCAATNCACGGTANG".toList (k - 2),
          ptr "ACGTNGTGGCAATNCACGGTANG".toList (k - 1)]
        + countN (readN (ptr "ACGTNGTGGCAATNCACGGTANG".toList) (k - 3))) ∧
      try_match forward_direction 'G' [] (ptr "ACGTNGTGGCAATNCACGGTANG".toList) = [] :=
  ⟨by decide,
    (budget_enforcement [] (ptr "ACGTNGTGGCAATNCACGGTANG".toList)).1.1 (by decide)⟩

/-! ## Wildcard expander -/

theorem digit_eq (n cp : Nat) :
    bases.getD (Int.land (((n : Nat) : Int) >>> (cp * 2)) 3).toNat (Char.ofNat 0)
      = digitBase n cp := by
  have e : Int.land (((n : Nat) : Int) >>> (cp * 2)) 3 = (((n >>> (cp * 2)) &&& 3 : Nat) : Int) :=
    rfl
  rw [e, Int.toNat_ofNat, Nat.shiftRight_eq_div_pow, digitBase]
  have h4 : (2 : Nat) ^ (cp * 2) = 4 ^ cp := by rw [mul_comm, pow_mul]; norm_num
  rw [h4, show (3 : Nat) = 2 ^ 2 - 1 by norm_num, Nat.and_pow_two_sub_one_eq_mod]

theorem fill_variant_append (p s : List Char) (n : Nat) :
    (fill_variant (p ++ s) n).drop p.length = fill_variant s n := by
  induction p with
  | nil => rfl
  | cons c p ih => simpa [fill_variant] using ih

theorem ptr_append_mid (p : List Char) (c : Char) (s : List Char) :
    ptr (p ++ c :: s) p.length = c := by
  unfold ptr
  rw [List.getD_eq_getElem?_getD, List.getElem?_append_right (le_refl _)]
  simp

theorem fill_variant_mid (p : List Char) (c : Char) (s : List Char) (n : Nat) :
    (fill_variant (p ++ c :: s) n).getD p.length (Char.ofNat 0)
      = if c = 'N' then digitBase n (s.count 'N') else c := by
  have h := fill_variant_append p (c :: s) n
  have e : (fill_variant (p ++ c :: s) n).getD p.length (Char.ofNat 0)
      = ((fill_variant (p ++ c :: s) n).drop p.length).getD 0 (Char.ofNat 0) := by
    simp [List.getD_eq_getElem?_getD, List.getElem?_drop]
  rw [e, h]
  rfl

theorem variant_loop_fill (n : Nat) (pre : List Char) :
    ∀ (suf : List Char) (gv : Nat → Char) (x : Nat),
      variant_loop (ptr (pre ++ suf)) (n : Int) pre.length (suf.count 'N') gv x
        = if x < pre.length then (fill_variant (pre ++ suf) n).getD x (Char.ofNat 0)
          else gv x := by
  induction pre using List.reverseRecOn with
  | nil => intro suf gv x; simp [variant_loop]
  | append_singleton p c ih =>
    intro suf gv x
    have hlen : (p ++ [c]).length = p.length + 1 := by simp
    have happ : p ++ [c] ++ suf = p ++ c :: suf := by simp
    rw [hlen, happ]
    simp only [variant_loop]
    rw [ptr_append_mid]
    by_cases hc : c = 'N'
    · rw [if_pos hc, digit_eq]
      have hcnt : suf.count 'N' + 1 = (c :: suf).count 'N' := by rw [hc]; simp
      rw [hcnt, ih (c :: suf)]
      by_cases h1 : x < p.length
      · rw [if_pos h1, if_pos (by omega)]
      · rw [if_neg h1]
        by_cases h2 : x = p.length
        · subst h2
          rw [if_pos (by omega), fill_variant_mid, if_pos hc]
          simp [store]
        · rw [if_neg (by omega)]; simp [store, h2]
    · rw [if_neg hc]
      have hcnt : suf.count 'N' = (c :: suf).count 'N' := by
        rw [List.count_cons]; simp [hc]
      rw [hcnt, ih (c :: suf)]
      by_cases h1 : x < p.length
      · rw [if_pos h1, if_pos (by omega)]
      · rw [if_neg h1]
        by_cases h2 : x = p.length
        · subst h2
          rw [if_pos (by omega), fill_variant_mid, if_neg hc]
          simp [store]
        · rw [if_neg (by omega)]; simp [store, h2]

theorem variant_eq_fill (g : List Char) (hlen : g.length = k - 3) (n : Nat) (x : Nat)
    (hx : x < k - 3) :
    variant (ptr g) (n : Int) x = ptr (fill_variant g n) x := by
  have h := variant_loop_fill n g [] (fun _ => Char.ofNat 0) x
  rw [List.append_nil, hlen, if_pos hx] at h
  unfold variant
  exact h

theorem digit_mod (n w cp : Nat) (h : cp < w) : n % 4 ^ w / 4 ^ cp % 4 = n / 4 ^ cp % 4 := by
  obtain ⟨d, rfl⟩ : ∃ d, w = cp + (d + 1) := ⟨w - cp - 1, by omega⟩
  rw [pow_add, Nat.mod_mul_right_div_self, pow_succ]
  exact Nat.mod_mod_of_dvd _ (Dvd.intro_left _ rfl)

theorem digits_ext (w : Nat) : ∀ n m : Nat,
    (∀ cp, cp < w → n / 4 ^ cp % 4 = m / 4 ^ cp % 4) → n % 4 ^ w = m % 4 ^ w := by
  induction w with
  | zero => intro n m _; simp [Nat.mod_one]
  | succ w ih =>
    intro n m h
    rw [Nat.mod_pow_succ, Nat.mod_pow_succ, ih n m (fun cp hcp => h cp (by omega)),
      h w (by omega)]

theorem fill_variant_agree (g : List Char) (n m : Nat)
    (h : ∀ cp, cp < g.count 'N' → n / 4 ^ cp % 4 = m / 4 ^ cp % 4) :
    fill_variant g n = fill_variant g m := by
  induction g with
  | nil => rfl
  | cons c g ih =>
    simp only [fill_variant]
    by_cases hc : c = 'N'
    · subst hc
      have hcount : (('N' : Char) :: g).count 'N' = g.count 'N' + 1 := by simp
      rw [hcount] at h
      rw [if_pos rfl, if_pos rfl, ih (fun cp hcp => h cp (by omega)), digitBase, digitBase,
        h (g.count 'N') (by omega)]
    · have hcount : (c :: g).count 'N' = g.count 'N' := by
        rw [List.count_cons]; simp [hc]
      rw [hcount] at h
      rw [if_neg hc, if_neg hc, ih h]

theorem digitBase_mem (n cp : Nat) : digitBase n cp ∈ bases := by
  unfold digitBase
  have h : n / 4 ^ cp % 4 < 4 := Nat.mod_lt _ (by norm_num)
  interval_cases (n / 4 ^ cp % 4) <;> decide

theorem digitBase_inj (n m cp : Nat) (h : digitBase n cp = digitBase m cp) :
    n / 4 ^ cp % 4 = m / 4 ^ cp % 4 := by
  unfold digitBase at h
  have h1 : n / 4 ^ cp % 4 < 4 := Nat.mod_lt _ (by norm_num)
  have h2 : m / 4 ^ cp % 4 < 4 := Nat.mod_lt _ (by norm_num)
  revert h
  generalize n / 4 ^ cp % 4 = a at *
  generalize m / 4 ^ cp % 4 = b at *
  interval_cases a <;> interval_cases b <;> decide

theorem fill_variant_digits (g : List Char) (n m : Nat)
    (h : fill_variant g n = fill_variant g m) :
    ∀ cp, cp < g.count 'N' → n / 4 ^ cp % 4 = m / 4 ^ cp % 4 := by
  induction g with
  | nil => intro cp hcp; simp at hcp
  | cons c g ih =>
    simp only [fill_variant, List.cons.injEq] at h
    intro cp hcp
    by_cases hc : c = 'N'
    · subst hc
      have hcount : (('N' : Char) :: g).count 'N' = g.count 'N' + 1 := by simp
      rw [hcount] at hcp
      rw [if_pos rfl, if_pos rfl] at h
      by_cases hlt : cp < g.count 'N'
      · exact ih h.2 cp hlt
      · have : cp = g.count 'N' := by omega
        subst this
        exact digitBase_inj n m _ h.1
    · have hcount : (c :: g).count 'N' = g.count 'N' := by
        rw [List.count_cons]; simp [hc]
      rw [hcount] at hcp
      exact ih h.2 cp hcp

theorem fill_variant_inj (g : List Char) (n m : Nat) (hn : n < 4 ^ g.count 'N')
    (hm : m < 4 ^ g.count 'N') (h : fill_variant g n = fill_variant g m) : n = m := by
  have := digits_ext (g.count 'N') n m (fill_variant_digits g n m h)
  rwa [Nat.mod_eq_of_lt hn, Nat.mod_eq_of_lt hm] at this

theorem isFill_fill_variant (g : List Char) (n : Nat) : IsFill g (fill_variant g n) := by
  induction g with
  | nil => trivial
  | cons c g ih =>
    simp only [fill_variant, IsFill]
    refine ⟨?_, ih⟩
    by_cases hc : c = 'N'
    · rw [if_pos hc, if_pos hc]; exact digitBase_mem _ _
    · rw [if_neg hc, if_neg hc]

theorem isFill_length : ∀ (g v : List Char), IsFill g v → v.length = g.length
  | [], [], _ => rfl
  | [], _ :: _, h => by simp [IsFill] at h
  | _ :: _, [], h => by simp [IsFill] at h
  | c :: g, d :: v, h => by
    simp only [IsFill] at h
    simp [isFill_length g v h.2]

theorem bases_index (d : Char) (h : d ∈ bases) :
    ∃ j, j < 4 ∧ bases.getD j (Char.ofNat 0) = d := by
  simp only [bases, List.mem_cons, List.mem_singleton, List.not_mem_nil, or_false] at h
  rcases h with h | h | h | h
  · exact ⟨0, by norm_num, h.symm ▸ rfl⟩
  · exact ⟨1, by norm_num, h.symm ▸ rfl⟩
  · exact ⟨2, by norm_num, h.symm ▸ rfl⟩
  · exact ⟨3, by norm_num, h.symm ▸ rfl⟩

theorem fill_variant_surj : ∀ (g v : List Char), IsFill g v →
    ∃ n, n < 4 ^ g.count 'N' ∧ fill_variant g n = v
  | [], [], _ => ⟨0, by simp, rfl⟩
  | [], _ :: _, h => by simp [IsFill] at h
  | _ :: _, [], h => by simp [IsFill] at h
  | c :: g, d :: v, h => by
    simp only [IsFill] at h
    obtain ⟨n, hn, hf⟩ := fill_variant_surj g v h.2
    by_cases hc : c = 'N'
    · subst hc
      rw [if_pos rfl] at h
      obtain ⟨j, hj, hd⟩ := bases_index d h.1
      have hpos : 0 < 4 ^ g.count 'N' := by positivity
      have hcount : (('N' : Char) :: g).count 'N' = g.count 'N' + 1 := by simp
      refine ⟨j * 4 ^ g.count 'N' + n, ?_, ?_⟩
      · rw [hcount, pow_succ]; nlinarith
      · have hmod : (j * 4 ^ g.count 'N' + n) % 4 ^ g.count 'N' = n := by
          rw [Nat.mul_add_mod_of_lt hn]
        have hdiv : (j * 4 ^ g.count 'N' + n) / 4 ^ g.count 'N' % 4 = j := by
          rw [Nat.add_div_of_dvd_right (Dvd.intro_left _ rfl), Nat.mul_div_cancel _ hpos,
            Nat.div_eq_of_lt hn, add_zero, Nat.mod_eq_of_lt hj]
        simp only [fill_variant, if_pos]
        rw [digitBase, hdiv, hd]
        congr 1
        rw [← hf]
        apply fill_variant_agree
        intro cp hcp
        rw [← digit_mod _ _ _ hcp, hmod]
    · rw [if_neg hc] at h
      have hcount : (c :: g).count 'N' = g.count 'N' := by
        rw [List.count_cons]; simp [hc]
      refine ⟨n, by rw [hcount]; exact hn, ?_⟩
      simp only [fill_variant, if_neg hc]
      rw [hf, h.1]

theorem isFill_base : ∀ (g v : List Char), (∀ c ∈ g, IsBase c) → IsFill g v →
    ∀ d ∈ v, IsBase d ∧ d ≠ 'N'
  | [], [], _, _ => by simp
  | [], _ :: _, _, h => by simp [IsFill] at h
  | _ :: _, [], _, h => by simp [IsFill] at h
  | c :: g, d :: v, hg, h => by
    simp only [IsFill] at h
    intro e he
    rcases List.mem_cons.1 he with he | he
    · subst he
      by_cases hc : c = 'N'
      · rw [if_pos hc] at h
        have := h.1
        simp only [bases, List.mem_cons, List.mem_singleton, List.not_mem_nil, or_false] at this
        rcases this with r | r | r | r <;> subst r <;> decide
      · rw [if_neg hc] at h
        rw [h.1]
        exact ⟨hg c (by simp), hc⟩
    · exact isFill_base g v (fun c hc => hg c (by simp [hc])) h.2 e he

theorem number_variants_eq (w : Nat) (h : w ≤ 15) :
    (int32 ((1 : Int) <<< (2 * ((w : Nat) : Int)))).toNat = 4 ^ w := by
  have e : (2 * ((w : Nat) : Int)) = ((2 * w : Nat) : Int) := by push_cast; ring
  rw [e, Int.one_shiftLeft, pow_mul]
  have hb : (4 : Nat) ^ w ≤ 4 ^ 15 := Nat.pow_le_pow_right (by norm_num) h
  have hb2 : ((4 ^ w : Nat) : Int) ≤ 1073741824 := by exact_mod_cast hb
  have hb3 : (0 : Int) ≤ ((4 ^ w : Nat) : Int) := Int.ofNat_nonneg _
  unfold int32
  norm_num only at *
  generalize (4 : Nat) ^ w = m at *
  omega

theorem lane_encode_ptr (s : List Char) (hlen : s.length = k - 3) (i : Nat) (hi : i < k - 3) :
    lane (k - 3) (encode (k - 3) (ptr s)) i = ((laneOf (s.getD i (Char.ofNat 0)) : Nat) : Int) := by
  have hl : (s.map laneOf).length = k - 3 := by rw [List.length_map, hlen]
  have a := lane_pack (s.map laneOf) (fun d hd => by
    obtain ⟨c, -, rfl⟩ := List.mem_map.1 hd
    have := laneOf_le c; omega) i (by rw [hl]; exact hi)
  rw [hl] at a
  have hi2 : i < s.length := by rw [hlen]; exact hi
  rw [← hlen, encode_ptr, hlen, a, List.getD_eq_getElem?_getD, List.getD_eq_getElem?_getD,
    List.getElem?_map, List.getElem?_eq_getElem hi2]
  rfl

theorem lane_complement_ptr (s : List Char) (hlen : s.length = k - 3) (i : Nat)
    (hi : i < k - 3) :
    lane (k - 3) (complement (encode (k - 3) (ptr s))) i
      = ((6 - laneOf (s.getD i (Char.ofNat 0)) : Nat) : Int) := by
  have hl : (s.map laneOf).length = k - 3 := by rw [List.length_map, hlen]
  have hl2 : ((s.map laneOf).map (fun d => 6 - d)).length = k - 3 := by
    rw [List.length_map, hl]
  have h6 : ∀ d ∈ s.map laneOf, d ≤ 6 := by
    intro d hd
    obtain ⟨c, -, rfl⟩ := List.mem_map.1 hd
    have := laneOf_le c; omega
  have a := lane_pack ((s.map laneOf).map (fun d => 6 - d)) (by
    intro d hd
    obtain ⟨e, -, rfl⟩ := List.mem_map.1 hd
    omega) i (by rw [hl2]; exact hi)
  rw [hl2] at a
  have hi2 : i < s.length := by rw [hlen]; exact hi
  rw [← hlen, encode_ptr, hlen, complement_pack _ hl h6, a, List.getD_eq_getElem?_getD,
    List.getD_eq_getElem?_getD, List.getElem?_map, List.getElem?_map,
    List.getElem?_eq_getElem hi2]
  rfl

theorem emit_code_inj (direction : Bool) (v v' : List Char) (hv : v.length = k - 3)
    (hv' : v'.length = k - 3) (hb : ∀ c ∈ v, IsBase c) (hb' : ∀ c ∈ v', IsBase c)
    (h : emit_code direction (ptr v) = emit_code direction (ptr v')) : v = v' := by
  have he : encode (k - 3) (ptr v) = encode (k - 3) (ptr v') := by
    unfold emit_code at h
    by_cases hd : direction = reverse_complement
    · rw [if_pos hd, if_pos hd] at h
      unfold complement at h
      linarith
    · rw [if_neg hd, if_neg hd] at h
      exact h
  have h1 := decode_encode_ptr v hv hb
  have h2 := decode_encode_ptr v' hv' hb'
  rw [he, h2] at h1
  exact (Option.some.inj h1).symm

theorem int32_succ (a : Int) : int32 (int32 a + 1) = int32 (a + 1) := by
  unfold int32; omega

theorem int32_zero : int32 0 = 0 := by
  unfold int32; norm_num

theorem int32_small (n : Nat) (h : n < 2 ^ 31) : int32 (n : Int) = (n : Int) := by
  unfold int32
  norm_num only at *
  omega

theorem not_mem_of_sorted_head {x : Int} {rest : List Int}
    (hs : (x :: rest).Sorted (· ≤ ·)) (hh : rest.head? ≠ some x) : x ∉ rest := by
  cases rest with
  | nil => simp
  | cons y rest =>
    have hxy : x ≠ y := fun h => hh (by simp [h])
    have h1 := List.rel_of_sorted_cons hs
    have h2 := List.rel_of_sorted_cons (List.Sorted.of_cons hs)
    have hlt : x < y := lt_of_le_of_ne (h1 y (by simp)) hxy
    intro hm
    rcases List.mem_cons.1 hm with h | h
    · exact hxy h
    · have := h2 x h
      omega

theorem output_loop_sorted (output_counts : Bool) :
    ∀ (l : List Int) (c : Nat), l.Sorted (· ≤ ·) → (∀ x ∈ l, (decode (k - 3) x).isSome) →
      output_loop output_counts l (int32 (c : Int)) =
        some (l.dedup.map (fun x => line_of output_counts x
          (int32 ((l.count x + (if l.head? = some x then c else 0) : Nat) : Int)))) := by
  intro l
  induction l with
  | nil => intro c _ _; rfl
  | cons x rest ih =>
    intro c hs hd
    have hs' : rest.Sorted (· ≤ ·) := List.Sorted.of_cons hs
    have hd' : ∀ y ∈ rest, (decode (k - 3) y).isSome := fun y hy => hd y (by simp [hy])
    simp only [output_loop]
    rw [int32_succ]
    by_cases hh : rest.head? ≠ some x
    · rw [if_pos hh]
      have hx : x ∉ rest := not_mem_of_sorted_head hs hh
      obtain ⟨s, hsx⟩ := Option.isSome_iff_exists.1 (hd x (by simp))
      have ih0 := ih 0 hs' hd'
      simp only [Nat.cast_zero] at ih0
      rw [int32_zero] at ih0
      rw [hsx, ih0, List.dedup_cons_of_not_mem hx, List.map_cons]
      simp only [Option.some.injEq, List.cons.injEq]
      constructor
      · simp [line_of, hsx, List.count_eq_zero_of_not_mem hx, add_comm]
      · apply List.map_congr_left
        intro y hy
        have hy' : y ∈ rest := List.mem_dedup.1 hy
        have hyx : y ≠ x := fun h => hx (h ▸ hy')
        have e : (x :: rest).count y = rest.count y := by
          rw [List.count_cons]; simp [Ne.symm hyx]
        rw [e]
        simp [hyx, Ne.symm hyx]
    · rw [if_neg hh]
      have hh' : rest.head? = some x := not_not.1 hh
      have hx : x ∈ rest := by
        cases rest with
        | nil => simp at hh'
        | cons y r => simp at hh'; simp [hh']
      have ih1 := ih (c + 1) hs' hd'
      rw [Nat.cast_add, Nat.cast_one] at ih1
      rw [ih1, List.dedup_cons_of_mem hx]
      refine congrArg some ?_
      apply List.map_congr_left
      intro y _
      by_cases hyx : y = x
      · subst hyx
        simp [hh']; ring_nf
      · have e : (x :: rest).count y = rest.count y := by
          rw [List.count_cons]; simp [Ne.symm hyx]
        rw [e]
        simp [hh', hyx, Ne.symm hyx]

theorem output_stage_eq (output_counts : Bool) (results : List Int)
    (hd : ∀ x ∈ results, (decode (k - 3) x).isSome) :
    output_stage output_counts results =
      some ((results.insertionSort (· ≤ ·)).dedup.map
        (fun x => line_of output_counts x (int32 ((results.count x : Nat) : Int)))) := by
  unfold output_stage
  have h := output_loop_sorted output_counts (results.insertionSort (· ≤ ·)) 0
    (List.sorted_insertionSort _ _)
    (fun x hx => hd x ((List.mem_insertionSort _).1 hx))
  simp only [Nat.cast_zero] at h
  rw [int32_zero] at h
  rw [h]
  refine congrArg some ?_
  apply List.map_congr_left
  intro x _
  rw [(List.perm_insertionSort _ results).count_eq]
  simp

/-- C10 (dedup and count), amended: for every list of candidate codes that `decode`
renders and in which no code occurs `2^31` times or more, the output stage of `scan_stdin`
emits exactly one line per distinct code; with `output_counts` the number on a line is
the number of occurrences of its code in the candidate list, and the numbers sum to the
size of the list. -/
theorem dedup_and_count (output_counts : Bool) (results : List Int)
    (hdec : ∀ x ∈ results, (decode (k - 3) x).isSome)
    (hbound : ∀ x ∈ results, results.count x < 2 ^ 31) :
    ∃ codes : List Int,
      codes.Nodup ∧ (∀ c, c ∈ codes ↔ c ∈ results) ∧
      output_stage output_counts results
        = some (codes.map (fun c => line_of output_counts c ((results.count c : Nat) : Int))) ∧
      (codes.map (fun c => results.count c)).sum = results.length := by
  refine ⟨(results.insertionSort (· ≤ ·)).dedup, List.nodup_dedup _, ?_, ?_, ?_⟩
  · intro c
    rw [List.mem_dedup, List.mem_insertionSort]
  · rw [output_stage_eq output_counts results hdec]
    refine congrArg some ?_
    apply List.map_congr_left
    intro x hx
    have hx' : x ∈ results := (List.mem_insertionSort _).1 (List.mem_dedup.1 hx)
    rw [int32_small _ (hbound x hx')]
  · have h := List.sum_map_count_dedup_eq_length (results.insertionSort (· ≤ ·))
    rw [(List.perm_insertionSort _ results).length_eq] at h
    rw [← h]
    congr 1
    apply List.map_congr_left
    intro x _
    rw [(List.perm_insertionSort _ results).count_eq]

theorem dedup_and_count_witness :
    ((∀ x ∈ [190719949234312485, 797498483285842065, 190719949234312485,
          190719949234312485], (decode (k - 3) x).isSome) ∧
      (∀ x ∈ [190719949234312485, 797498483285842065, 190719949234312485,
          190719949234312485],
        [190719949234312485, 797498483285842065, 190719949234312485,
          190719949234312485].count x < 2 ^ 31)) ∧
    output_stage true [190719949234312485, 797498483285842065, 190719949234312485,
        190719949234312485]
      = some [{ guide := "ACGTGGTGGCAATGCACGGT".toList, count := some 3 },
              { guide := "TGCACCACCGTTACGTGCCA".toList, count := some 1 }] ∧
    ∃ codes : List Int,
      codes.Nodup ∧
      (∀ c, c ∈ codes ↔ c ∈ [190719949234312485, 797498483285842065, 190719949234312485,
        190719949234312485]) ∧
      output_stage true [190719949234312485, 797498483285842065, 190719949234312485,
          190719949234312485]
        = some (codes.map (fun c => line_of true c
            (([190719949234312485, 797498483285842065, 190719949234312485,
              190719949234312485].count c : Nat) : Int))) ∧
      (codes.map (fun c => [190719949234312485, 797498483285842065, 190719949234312485,
        190719949234312485].count c)).sum
        = [190719949234312485, 797498483285842065, 190719949234312485,
          190719949234312485].length :=
  ⟨⟨by decide, by decide⟩, by decide,
    dedup_and_count true [190719949234312485, 797498483285842065, 190719949234312485,
      190719949234312485] (by decide) (by decide)⟩

/-- C10, counterexample to the claim as stated: a candidate list holding the code of
ACGTGGTGGCAATGCACGGT `2^31` times gives one line whose printed `int32_t` counter is
`-2147483648`, not the number of occurrences. -/
theorem count_overflow :
    (List.replicate (2 ^ 31) (190719949234312485 : Int)).count 190719949234312485 = 2 ^ 31 ∧
    output_stage true (List.replicate (2 ^ 31) (190719949234312485 : Int))
      = some [{ guide := "ACGTGGTGGCAATGCACGGT".toList, count := some (-2147483648) }] := by
  have hdec : (decode (k - 3) 190719949234312485).isSome := by decide
  have hsorted : (List.replicate (2 ^ 31) (190719949234312485 : Int)).Sorted (· ≤ ·) := by
    rw [List.Sorted, List.pairwise_replicate]
    right; exact le_refl _
  refine ⟨List.count_replicate_self _ _, ?_⟩
  rw [output_stage_eq true _ (fun x hx => by rw [List.eq_of_mem_replicate hx]; exact hdec),
    hsorted.insertionSort_eq, List.replicate_dedup (by norm_num), List.map_cons, List.map_nil,
    List.count_replicate_self]
  have hg : (decode (k - 3) 190719949234312485).getD [] = "ACGTGGTGGCAATGCACGGT".toList := by
    decide
  have hi : int32 (((2 ^ 31 : Nat)) : Int) = -2147483648 := by
    unfold int32; norm_num
  rw [line_of, hg, hi]
  rfl

/-! ## Header boundaries -/

set_option maxRecDepth 1000000 in
/-- C1, the code at a failing input: one read returns a 22-base sequence that begins with
CC, a header line, and a sequence of one base.  Neither sequence holds a `k`-base window,
yet the scan reports a guide: the window it matched is the 22 bases before the header
followed by the base after it. -/
theorem separator_straddles_header :
    segments "CCAAAAAAAAAAAAAAAAAAAA\n>h\nT".toList
      = ["CCAAAAAAAAAAAAAAAAAAAA".toList, "T".toList] ∧
    (∀ s ∈ segments "CCAAAAAAAAAAAAAAAAAAAA\n>h\nT".toList,
      s.length < k ∧ scan_for_kmers [] (ptr s) s.length = []) ∧
    scan_results ["CCAAAAAAAAAAAAAAAAAAAA\n>h\nT".toList]
      = some [complement (encode (k - 3) (ptr "TAAAAAAAAAAAAAAAAAAA".toList))] ∧
    decode (k - 3) (complement (encode (k - 3) (ptr "TAAAAAAAAAAAAAAAAAAA".toList)))
      = some "ATTTTTTTTTTTTTTTTTTT".toList := by
  refine ⟨by decide, by decide, by decide, by decide⟩

set_option maxRecDepth 1000000 in
/-- C2, the code at a failing input: the PAM-matching 23-mer ACGTGGTGGCAATGCACGGTAGG
occurs three times, each time right after a header line.  Scanned on its own each
occurrence yields its guide, but the scan of the stream examines none of the three
windows and reports no candidate. -/
theorem window_after_header_skipped :
    (segments (">a\nACGTGGTGGCAATGCACGGTAGG\n>b\nACGTGGTGGCAATGCACGGTAGG\n" ++
        ">c\nACGTGGTGGCAATGCACGGTAGG\n").toList).map
        (fun s => scan_for_kmers [] (ptr s) s.length)
      = [[], [encode (k - 3) (ptr "ACGTGGTGGCAATGCACGGT".toList)],
          [encode (k - 3) (ptr "ACGTGGTGGCAATGCACGGT".toList)],
          [encode (k - 3) (ptr "ACGTGGTGGCAATGCACGGT".toList)]] ∧
    scan_results [(">a\nACGTGGTGGCAATGCACGGTAGG\n>b\nACGTGGTGGCAATGCACGGTAGG\n" ++
        ">c\nACGTGGTGGCAATGCACGGTAGG\n").toList] = some [] := by
  refine ⟨by decide, by decide⟩

/-! ## Chunking refinement -/

theorem try_match_append (direction : Bool) (cog : Char) (results : List Int)
    (bufi : Nat → Char) (hcog : cog ≠ 'N') :
    try_match direction cog results bufi = results ++ try_match direction cog [] bufi := by
  rw [try_match_eq direction cog results bufi hcog, try_match_eq direction cog [] bufi hcog]
  by_cases h1 : pamPresent direction cog bufi
  · rw [if_pos h1, if_pos h1]
    by_cases h2 : countN (pamOf direction bufi) + countN (guideOf direction bufi) ≤ max_N
    · rw [if_pos h2, if_pos h2]
      by_cases h3 : countN (guideOf direction bufi) > 0
      · rw [if_pos h3, if_pos h3, emit_all_variants_eq, emit_all_variants_eq, List.nil_append]
      · rw [if_neg h3, if_neg h3, emit_eq, emit_eq, List.nil_append]
    · rw [if_neg h2, if_neg h2, List.append_nil]
  · rw [if_neg h1, if_neg h1, List.append_nil]

theorem index_lt (direction : Bool) (j : Nat) (hj : j < k) : index direction j < k := by
  unfold index k at *
  split_ifs <;> omega

theorem try_match_congr (direction : Bool) (cog : Char) (results : List Int)
    (b b' : Nat → Char) (hcog : cog ≠ 'N') (h : ∀ x, x < k → b x = b' x) :
    try_match direction cog results b = try_match direction cog results b' := by
  have hp : pamOf direction b = pamOf direction b' := by
    unfold pamOf
    rw [h _ (index_lt _ 0 (by decide)), h _ (index_lt _ 1 (by decide))]
  have hg : guideOf direction b = guideOf direction b' := by
    unfold guideOf
    apply List.map_congr_left
    intro j hj
    have hj' : j < k - 3 := List.mem_range.1 hj
    exact h _ (index_lt _ j (by unfold k at *; omega))
  have hpp : pamPresent direction cog b ↔ pamPresent direction cog b' := by
    unfold pamPresent; rw [hp]
  rw [try_match_eq direction cog results b hcog, try_match_eq direction cog results b' hcog,
    hp, hg]
  by_cases hq : pamPresent direction cog b
  · rw [if_pos hq, if_pos (hpp.1 hq)]
  · rw [if_neg hq, if_neg (fun h => hq (hpp.2 h))]

theorem site_congr (b b' : Nat → Char) (j j' : Nat)
    (h : ∀ x, x < k → b (j + x) = b' (j' + x)) : site b j = site b' j' := by
  unfold site
  rw [try_match_congr forward_direction 'G' [] (offset b j) (offset b' j') (by decide) h,
    try_match_congr reverse_complement 'C' _ (offset b j) (offset b' j') (by decide) h]

theorem kmers_loop_eq (buf : Nat → Char) :
    ∀ (n i : Nat) (results : List Int),
      kmers_loop buf n i results = results ++ (List.range' i n).flatMap (site buf) := by
  intro n
  induction n with
  | zero => intro i r; simp [kmers_loop]
  | succ n ih =>
    intro i r
    simp only [kmers_loop, List.range'_succ, List.flatMap_cons]
    rw [ih, ← List.append_assoc]
    congr 1
    rw [try_match_append reverse_complement 'C' _ _ (by decide),
      try_match_append forward_direction 'G' r _ (by decide), site,
      try_match_append reverse_complement 'C' (try_match forward_direction 'G' [] _) _
        (by decide), List.append_assoc]

theorem scan_for_kmers_eq (results : List Int) (buf : Nat → Char) (len : Nat) :
    scan_for_kmers results buf len
      = results ++ (List.range' 0 (len + 1 - k)).flatMap (site buf) := by
  unfold scan_for_kmers
  by_cases h : len < k
  · rw [if_pos h, show len + 1 - k = 0 by omega]; simp
  · rw [if_neg h, kmers_loop_eq, show len - k + 1 = len + 1 - k by omega]

theorem ptr_readN (buf : Nat → Char) (len x : Nat) (hx : x < len) :
    ptr (readN buf len) x = buf x := by
  unfold ptr readN
  rw [List.getD_eq_getElem?_getD, List.getElem?_map, List.getElem?_range hx]
  rfl

theorem readN_length (buf : Nat → Char) (len : Nat) : (readN buf len).length = len := by
  simp [readN]

theorem flatMap_site_congr (b b' : Nat → Char) (i i' n : Nat)
    (h : ∀ j x, j < n → x < k → b (i + j + x) = b' (i' + j + x)) :
    (List.range' i n).flatMap (site b) = (List.range' i' n).flatMap (site b') := by
  induction n generalizing i i' with
  | zero => rfl
  | succ n ih =>
    simp only [List.range'_succ, List.flatMap_cons]
    rw [site_congr b b' i i' (fun x hx => h 0 x (by omega) hx),
      ih (i + 1) (i' + 1) (fun j x hj hx => by
        have := h (j + 1) x (by omega) hx
        rw [show i + 1 + j = i + (j + 1) by ring, show i' + 1 + j = i' + (j + 1) by ring]
        exact this)]

theorem scan_for_kmers_readN (results : List Int) (buf : Nat → Char) (len : Nat) :
    scan_for_kmers results buf len = results ++ kmers (readN buf len) := by
  rw [kmers, scan_for_kmers_eq, scan_for_kmers_eq, readN_length, List.nil_append,
    flatMap_site_congr buf (ptr (readN buf len)) 0 0 (len + 1 - k) (fun j x hj hx => by
      rw [ptr_readN buf len _ (by omega)])]

theorem kmers_eq (s : List Char) :
    kmers s = (List.range' 0 (s.length + 1 - k)).flatMap (site (ptr s)) := by
  rw [kmers, scan_for_kmers_eq, List.nil_append]

theorem kmers_short (s : List Char) (h : s.length < k) : kmers s = [] := by
  rw [kmers_eq, show s.length + 1 - k = 0 by omega]
  rfl

theorem ptr_append_left (a b : List Char) (x : Nat) (hx : x < a.length) :
    ptr (a ++ b) x = ptr a x := by
  unfold ptr
  rw [List.getD_eq_getElem?_getD, List.getD_eq_getElem?_getD, List.getElem?_append_left hx]

theorem ptr_drop (l : List Char) (d y : Nat) : ptr (l.drop d) y = ptr l (d + y) := by
  unfold ptr
  rw [List.getD_eq_getElem?_getD, List.getD_eq_getElem?_getD, List.getElem?_drop]

theorem kmers_append (P nb : List Char) :
    kmers (P ++ nb) = kmers P ++ kmers (P.drop (P.length - min P.length (k - 1)) ++ nb) := by
  have hk : k = 23 := rfl
  by_cases hP : P.length < k
  · have h0 : P.length - min P.length (k - 1) = 0 := by
      rw [hk] at hP ⊢; omega
    rw [kmers_short P hP, h0, List.drop_zero, List.nil_append]
  · have hd : P.length - min P.length (k - 1) = P.length + 1 - k := by
      rw [hk] at hP ⊢; omega
    have hle : P.length + 1 - k ≤ P.length := by rw [hk]; omega
    rw [hd, kmers_eq (P ++ nb), kmers_eq P, kmers_eq (P.drop (P.length + 1 - k) ++ nb)]
    have hlen1 : (P ++ nb).length + 1 - k = nb.length + (P.length + 1 - k) := by
      rw [List.length_append]; rw [hk] at hP ⊢; omega
    have hlen2 : (P.drop (P.length + 1 - k) ++ nb).length + 1 - k = nb.length := by
      rw [List.length_append, List.length_drop]; rw [hk] at hP ⊢; omega
    rw [hlen1, hlen2, ← List.range'_append 0 (P.length + 1 - k) nb.length 1,
      List.flatMap_append]
    congr 1
    · apply flatMap_site_congr
      intro j x hj hx
      rw [ptr_append_left P nb _ (by rw [hk] at hP hj hx; omega)]
    · rw [one_mul, zero_add]
      apply flatMap_site_congr
      intro j x hj hx
      rw [← List.drop_append_of_le_length hle, ptr_drop]
      congr 1
      omega

theorem move_loop_eq (len overlap : Nat) :
    ∀ (n i : Nat) (w : Nat → Char) (x : Nat),
      move_loop len overlap n i w x
        = if i ≤ x ∧ x < i + n then w (len - overlap + x) else w x := by
  intro n
  induction n with
  | zero => intro i w x; simp only [move_loop]; rw [if_neg (by omega)]
  | succ n ih =>
    intro i w x
    simp only [move_loop]
    rw [ih]
    by_cases h1 : i + 1 ≤ x ∧ x < i + 1 + n
    · rw [if_pos h1, if_pos (by omega)]
      unfold store
      rw [if_neg (by omega)]
    · rw [if_neg h1]
      unfold store
      by_cases h2 : x = i
      · rw [if_pos h2, if_pos (by omega), h2]
      · rw [if_neg h2, if_neg (by omega)]

theorem readN_move_loop (len overlap : Nat) (h : overlap ≤ len) (w : Nat → Char) :
    readN (move_loop len overlap overlap 0 w) overlap = (readN w len).drop (len - overlap) := by
  apply List.ext_getElem
  · simp [readN]; omega
  · intro x h1 h2
    have hx : x < overlap := by simpa [readN] using h1
    simp only [readN, List.getElem_map, List.getElem_range, List.getElem_drop]
    rw [move_loop_eq len overlap, if_pos (by omega)]

theorem readN_succ (w : Nat → Char) (n : Nat) : readN w (n + 1) = readN w n ++ [w n] := by
  simp [readN, List.range_succ]

theorem readN_congr (w w' : Nat → Char) (n : Nat) (h : ∀ x, x < n → w x = w' x) :
    readN w n = readN w' n :=
  List.map_congr_left (fun x hx => h x (List.mem_range.1 hx))

theorem readN_store_end (w : Nat → Char) (n : Nat) (c : Char) :
    readN (store w n c) (n + 1) = readN w n ++ [c] := by
  rw [readN_succ]
  congr 1
  · exact readN_congr _ _ _ (fun x hx => by unfold store; rw [if_neg (by omega)])
  · unfold store; rw [if_pos rfl]

theorem sequence_of_cons (c : Char) (rest : List Char) :
    sequence_of (c :: rest)
      = if c.toUpper = '\n' then sequence_of rest else c.toUpper :: sequence_of rest := by
  unfold sequence_of
  rw [List.map_cons, List.filter_cons]
  by_cases h : c.toUpper = '\n'
  · rw [if_pos h, if_neg (by simp [h])]
  · rw [if_neg h, if_pos (by simp [h])]

theorem sequence_of_append (a b : List Char) :
    sequence_of (a ++ b) = sequence_of a ++ sequence_of b := by
  unfold sequence_of
  rw [List.map_append, List.filter_append]

theorem normalize_loop_plain :
    ∀ (todo : List Char) (s : NormState) (i : Nat),
      s.chrm_comment = false → s.len ≤ i →
      (∀ j, j < todo.length → s.window (i + j) = todo.getD j (Char.ofNat 0)) →
      (∀ c ∈ todo, c.toUpper ≠ '>') →
      (normalize_loop todo.length i s).len = s.len + (sequence_of todo).length ∧
      (normalize_loop todo.length i s).chrm_comment = false ∧
      (normalize_loop todo.length i s).separator_indices = s.separator_indices ∧
      readN (normalize_loop todo.length i s).window (normalize_loop todo.length i s).len
        = readN s.window s.len ++ sequence_of todo := by
  intro todo
  induction todo with
  | nil =>
    intro s i hc _ _ _
    simp [normalize_loop, sequence_of, hc]
  | cons c rest ih =>
    intro s i hc hle hw hgt
    have hci : s.window i = c := by
      have := hw 0 (by simp)
      simpa using this
    have hrest : ∀ c ∈ rest, c.toUpper ≠ '>' := fun c hc => hgt c (by simp [hc])
    simp only [List.length_cons, normalize_loop]
    rw [sequence_of_cons]
    by_cases hn : c.toUpper = '\n'
    · have hstep : normalize_step s i =
          { s with lines := s.lines + 1, chrm_comment := false } := by
        unfold normalize_step
        simp only [hci]
        rw [if_pos hn, hc]
        rfl
      have := ih (normalize_step s i) (i + 1) (by rw [hstep]) (by rw [hstep]; simp; omega)
        (fun j hj => by
          rw [hstep]
          have := hw (j + 1) (by simp; omega)
          simp only [List.getD_cons_succ] at this
          rw [show i + 1 + j = i + (j + 1) by ring]
          exact this) hrest
      rw [if_pos hn]
      rw [hstep] at this ⊢
      exact this
    · have hg : c.toUpper ≠ '>' := hgt c (by simp)
      have hstep : normalize_step s i =
          { s with window := store s.window s.len c.toUpper, len := s.len + 1 } := by
        unfold normalize_step
        simp only [hci]
        rw [if_neg hn, hc]
        simp only [Bool.not_false, if_true]
        rw [if_neg hg]
      have := ih (normalize_step s i) (i + 1) (by rw [hstep]; exact hc) (by rw [hstep]; simp; omega)
        (fun j hj => by
          rw [hstep]
          have := hw (j + 1) (by simp; omega)
          simp only [List.getD_cons_succ] at this
          simp only [store]
          rw [if_neg (by omega), show i + 1 + j = i + (j + 1) by ring]
          exact this) hrest
      rw [if_neg hn]
      rw [hstep] at this ⊢
      simp only [List.length_cons] at this ⊢
      obtain ⟨h1, h2, h3, h4⟩ := this
      refine ⟨by rw [h1]; omega, h2, h3, ?_⟩
      rw [h4, readN_store_end, List.append_assoc]
      rfl

theorem read_into_at (w : Nat → Char) (o : Nat) (chunk : List Char) (j : Nat)
    (hj : j < chunk.length) :
    read_into w o chunk (o + j) = chunk.getD j (Char.ofNat 0) := by
  unfold read_into
  rw [if_pos (by omega), Nat.add_sub_cancel_left]

theorem readN_read_into (w : Nat → Char) (o : Nat) (chunk : List Char) :
    readN (read_into w o chunk) o = readN w o :=
  readN_congr _ _ _ (fun x hx => by unfold read_into; rw [if_neg (by omega)])

theorem scan_iteration_short (st : ScanState) (chunk : List Char)
    (h1 : 0 ≤ st.overlap ∧ st.overlap < (k : Int)) (h2 : (norm_of st chunk).len < k) :
    scan_iteration st chunk = some
      { results := st.results, window := (norm_of st chunk).window,
        separator_indices := (norm_of st chunk).separator_indices,
        lines := (norm_of st chunk).lines,
        bases := st.bases + ((norm_of st chunk).len - st.overlap.toNat),
        chrm_comment := (norm_of st chunk).chrm_comment,
        overlap := ((norm_of st chunk).len : Int) } := by
  unfold scan_iteration
  rw [if_pos h1]
  show (if (norm_of st chunk).len < k then _ else _) = _
  rw [if_pos h2]
  rfl

theorem scan_iteration_plain_scan (st : ScanState) (chunk : List Char)
    (h1 : 0 ≤ st.overlap ∧ st.overlap < (k : Int)) (h2 : ¬ (norm_of st chunk).len < k)
    (h3 : (norm_of st chunk).separator_indices.length = 0) :
    scan_iteration st chunk = some
      { results := scan_for_kmers st.results (norm_of st chunk).window (norm_of st chunk).len,
        window := move_loop (norm_of st chunk).len (k - 1) (k - 1) 0 (norm_of st chunk).window,
        separator_indices := [],
        lines := (norm_of st chunk).lines,
        bases := st.bases + ((norm_of st chunk).len - st.overlap.toNat),
        chrm_comment := (norm_of st chunk).chrm_comment,
        overlap := ((k - 1 : Nat) : Int) } := by
  unfold scan_iteration
  rw [if_pos h1]
  show (if (norm_of st chunk).len < k then _ else
    (if (norm_of st chunk).separator_indices.length = 0 then _ else _)) = _
  rw [if_neg h2, if_pos h3]
  rfl

theorem scan_iteration_plain (st : ScanState) (P chunk : List Char) (hinv : PlainInv st P)
    (hch : ∀ c ∈ chunk, c.toUpper ≠ '>') :
    ∃ st', scan_iteration st chunk = some st' ∧ PlainInv st' (P ++ sequence_of chunk) := by
  have hk : k = 23 := rfl
  obtain ⟨hsep, hchrm, hov, hwin, hres⟩ := hinv
  have hto : st.overlap.toNat = min P.length (k - 1) := by rw [hov]; exact Int.toNat_ofNat _
  have h1 : 0 ≤ st.overlap ∧ st.overlap < (k : Int) := by
    rw [hov]
    constructor
    · exact Int.ofNat_nonneg _
    · have : min P.length (k - 1) < k := by rw [hk]; omega
      exact_mod_cast this
  have hn := normalize_loop_plain chunk
    { window := read_into st.window st.overlap.toNat chunk, len := st.overlap.toNat,
      lines := st.lines, chrm_comment := st.chrm_comment,
      separator_indices := st.separator_indices }
    st.overlap.toNat hchrm (le_refl _) (fun j hj => read_into_at _ _ _ j hj) hch
  obtain ⟨hlen, hc2, hs2, hr2⟩ := hn
  change (norm_of st chunk).len = st.overlap.toNat + (sequence_of chunk).length at hlen
  change (norm_of st chunk).chrm_comment = false at hc2
  change (norm_of st chunk).separator_indices = st.separator_indices at hs2
  change readN (norm_of st chunk).window (norm_of st chunk).len
    = readN (read_into st.window st.overlap.toNat chunk) st.overlap.toNat ++ sequence_of chunk
    at hr2
  rw [readN_read_into, hto, hwin] at hr2
  rw [hto] at hlen
  rw [hsep] at hs2
  have hdle : P.length - min P.length (k - 1) ≤ P.length := Nat.sub_le _ _
  have hdrop : (P ++ sequence_of chunk).drop (P.length - min P.length (k - 1))
      = P.drop (P.length - min P.length (k - 1)) ++ sequence_of chunk :=
    List.drop_append_of_le_length hdle
  by_cases h2 : (norm_of st chunk).len < k
  · refine ⟨_, scan_iteration_short st chunk h1 h2, hs2, hc2, ?_, ?_, ?_⟩
    · show (((norm_of st chunk).len : Nat) : Int) = _
      congr 1
      rw [List.length_append]
      rw [hlen, hk] at h2
      rw [hlen, hk]
      omega
    · show readN (norm_of st chunk).window _ = _
      have e1 : min (P ++ sequence_of chunk).length (k - 1) = (norm_of st chunk).len := by
        rw [List.length_append]
        rw [hlen, hk] at h2
        rw [hlen, hk]
        omega
      have e2 : (P ++ sequence_of chunk).length - (norm_of st chunk).len
          = P.length - min P.length (k - 1) := by
        rw [List.length_append, hlen]
        omega
      rw [e1, e2, hdrop, hr2]
    · show st.results = _
      rw [hres, kmers_append, kmers_short (P.drop _ ++ sequence_of chunk), List.append_nil]
      rw [← hr2, readN_length]
      exact h2
  · refine ⟨_, scan_iteration_plain_scan st chunk h1 h2 (by rw [hs2]; rfl), rfl, hc2,
      ?_, ?_, ?_⟩
    · show (((k - 1 : Nat)) : Int) = _
      congr 1
      rw [List.length_append]
      rw [hlen, hk] at h2
      rw [hk]
      omega
    · show readN (move_loop (norm_of st chunk).len (k - 1) (k - 1) 0
        (norm_of st chunk).window) _ = _
      have e1 : min (P ++ sequence_of chunk).length (k - 1) = k - 1 := by
        rw [List.length_append]
        rw [hlen, hk] at h2
        rw [hk]
        omega
      rw [e1, readN_move_loop _ _ (by rw [hk] at h2 ⊢; omega), hr2, ← hdrop, List.drop_drop]
      congr 1
      rw [List.length_append]
      rw [hlen, hk] at h2
      rw [hlen, hk]
      omega
    · show scan_for_kmers st.results _ _ = _
      rw [scan_for_kmers_readN, hr2, hres]
      exact (kmers_append P (sequence_of chunk)).symm

theorem read_loop_plain :
    ∀ (chunks : List (List Char)) (st : ScanState) (P : List Char), PlainInv st P →
      (∀ c ∈ chunks, c ≠ [] ∧ ∀ b ∈ c, b.toUpper ≠ '>') →
      ∃ st', read_loop st chunks = some st' ∧ PlainInv st' (P ++ sequence_of chunks.flatten) := by
  have hk : k = 23 := rfl
  intro chunks
  induction chunks with
  | nil =>
    intro st P hinv _
    have h1 : 0 ≤ st.overlap ∧ st.overlap < (k : Int) := by
      rw [hinv.2.2.1]
      constructor
      · exact Int.ofNat_nonneg _
      · have : min P.length (k - 1) < k := by rw [hk]; omega
        exact_mod_cast this
    refine ⟨st, ?_, ?_⟩
    · unfold read_loop; rw [if_pos h1]
    · have : sequence_of ([] : List (List Char)).flatten = [] := rfl
      rw [this, List.append_nil]; exact hinv
  | cons chunk rest ih =>
    intro st P hinv hall
    have hc := hall chunk (by simp)
    obtain ⟨st1, hst1, hinv1⟩ := scan_iteration_plain st P chunk hinv hc.2
    obtain ⟨st2, hst2, hinv2⟩ := ih st1 _ hinv1 (fun c hc => hall c (by simp [hc]))
    refine ⟨st2, ?_, ?_⟩
    · unfold read_loop
      have hl : ¬ chunk.length = 0 := fun h => hc.1 (List.length_eq_zero.1 h)
      rw [if_neg hl, hst1]
      exact hst2
    · rw [List.flatten_cons, sequence_of_append, ← List.append_assoc]
      exact hinv2

theorem plainInv_init : PlainInv ScanState.init [] := by
  refine ⟨rfl, rfl, rfl, rfl, ?_⟩
  show ([] : List Int) = kmers []
  rw [kmers_short [] (by decide)]

theorem mem_try_match_pam (direction : Bool) (cog : Char) (bufi : Nat → Char)
    (hcog : cog ≠ 'N') (code : Int) (h : code ∈ try_match direction cog [] bufi) :
    pamPresent direction cog bufi := by
  by_contra hp
  rw [try_match_eq direction cog [] bufi hcog, if_neg hp] at h
  exact List.not_mem_nil _ h

/-- C3 (chunking refinement on header-free input): for every input of sequence bytes over
{A,C,G,T,N,a,c,g,t,n} and newlines and every split of it into non-empty read chunks, the
read loop of `scan_stdin` hits no assertion and its result list is the list that a single
call of `scan_for_kmers` produces on the whole upper-cased, newline-stripped sequence; so
every reported guide is pushed by `try_match` on a window of the input whose PAM is
present. -/
theorem chunking_refinement (chunks : List (List Char))
    (hne : ∀ c ∈ chunks, c ≠ [])
    (halpha : ∀ c ∈ chunks, ∀ b ∈ c, b ∈ "ACGTNacgtn\n".toList) :
    scan_results chunks
      = some (scan_for_kmers [] (ptr (sequence_of chunks.flatten))
          (sequence_of chunks.flatten).length) ∧
    ∀ code ∈ scan_for_kmers [] (ptr (sequence_of chunks.flatten))
        (sequence_of chunks.flatten).length,
      ∃ i, i + k ≤ (sequence_of chunks.flatten).length ∧
        ((pamPresent forward_direction 'G' (offset (ptr (sequence_of chunks.flatten)) i) ∧
            code ∈ try_match forward_direction 'G' []
              (offset (ptr (sequence_of chunks.flatten)) i)) ∨
          (pamPresent reverse_complement 'C' (offset (ptr (sequence_of chunks.flatten)) i) ∧
            code ∈ try_match reverse_complement 'C' []
              (offset (ptr (sequence_of chunks.flatten)) i))) := by
  have hup : ∀ b ∈ "ACGTNacgtn\n".toList, b.toUpper ≠ '>' := by decide
  obtain ⟨st, hst, hinv⟩ := read_loop_plain chunks ScanState.init [] plainInv_init
    (fun c hc => ⟨hne c hc, fun b hb => hup b (halpha c hc b hb)⟩)
  constructor
  · unfold scan_results
    rw [hst, List.nil_append] at *
    exact congrArg some hinv.2.2.2.2
  · intro code hcode
    rw [scan_for_kmers_eq, List.nil_append, List.mem_flatMap] at hcode
    obtain ⟨i, hi, hc⟩ := hcode
    have hi2 := (List.mem_range'_1.1 hi).2
    refine ⟨i, by have hk : k = 23 := rfl; rw [hk] at hi2 ⊢; omega, ?_⟩
    unfold site at hc
    rw [try_match_append reverse_complement 'C' _ _ (by decide), List.mem_append] at hc
    rcases hc with hc | hc
    · exact Or.inl ⟨mem_try_match_pam _ _ _ (by decide) code hc, hc⟩
    · exact Or.inr ⟨mem_try_match_pam _ _ _ (by decide) code hc, hc⟩

theorem chunking_refinement_witness :
    ((∀ c ∈ ["acgtGGTGGCAATG".toList, "CACGGTAGG\nACGTNG".toList], c ≠ []) ∧
      (∀ c ∈ ["acgtGGTGGCAATG".toList, "CACGGTAGG\nACGTNG".toList],
        ∀ b ∈ c, b ∈ "ACGTNacgtn\n".toList)) ∧
    scan_results ["acgtGGTGGCAATG".toList, "CACGGTAGG\nACGTNG".toList]
      = some (scan_for_kmers []
          (ptr (sequence_of ["acgtGGTGGCAATG".toList, "CACGGTAGG\nACGTNG".toList].flatten))
          (sequence_of ["acgtGGTGGCAATG".toList, "CACGGTAGG\nACGTNG".toList].flatten).length) :=
  ⟨⟨by decide, by decide⟩,
    (chunking_refinement ["acgtGGTGGCAATG".toList, "CACGGTAGG\nACGTNG".toList]
      (by decide) (by decide)).1⟩

/-! ## Failing inputs of the scanner and the codec -/

set_option maxRecDepth 1000000 in
/-- C12, the code at a failing input: the 20 bytes ACGTGGTGGCAATGCACGGX end with a byte
outside {A,C,G,T,N}.  `bitcode_for_base` asserts on it, but `encode` reads the table
`encoding`, whose untouched cells are 0: it returns a packed code with lane 0 in the last
position, `scan_for_kmers` pushes that code as a candidate, and only `decode` fails on it. -/
theorem encode_accepts_unrecognized_byte :
    ¬ IsBase 'X' ∧ bitcode_for_base 'X' = none ∧
    encode (k - 3) (ptr "ACGTGGTGGCAATGCACGGX".toList) = 190719949234312480 ∧
    (∀ i, i < k - 3 - 1 →
      lane (k - 3) (encode (k - 3) (ptr "ACGTGGTGGCAATGCACGGX".toList)) i
        = lane (k - 3) (encode (k - 3) (ptr "ACGTGGTGGCAATGCACGGT".toList)) i) ∧
    lane (k - 3) (encode (k - 3) (ptr "ACGTGGTGGCAATGCACGGX".toList)) (k - 3 - 1) = 0 ∧
    scan_for_kmers [] (ptr "ACGTGGTGGCAATGCACGGXAGG".toList) k = [190719949234312480] ∧
    decode (k - 3) 190719949234312480 = none := by
  refine ⟨by decide, by decide, by decide, by decide, by decide, by decide, by decide⟩

set_option maxRecDepth 1000000 in
/-- C17, the code at a failing input: one read returns the header line `>h` followed by
the bases ACGT.  When the newline closes the header the compacted length is 0, and the
first base of the sequence is stored at offset 0, but the separator recorded is 1. -/
theorem separator_is_len_plus_one :
    (norm_of ScanState.init ">h\n".toList).len = 0 ∧
    (norm_of ScanState.init ">h\n".toList).separator_indices = [1] ∧
    (norm_of ScanState.init ">h\nACGT".toList).separator_indices = [1] ∧
    (norm_of ScanState.init ">h\nACGT".toList).len = 4 ∧
    readN (norm_of ScanState.init ">h\nACGT".toList).window 4 = "ACGT".toList := by
  refine ⟨by decide, by decide, by decide, by decide, by decide⟩

set_option maxRecDepth 1000000 in
/-- C18, the code at a failing input: one read returns a sequence line of 23 bases and a
header line that ends the chunk.  The separator recorded is 24 while `len` is 23, so
`scan_for_kmers(window, 24)` reads one byte past the compacted bytes, `overlap` becomes
`len - 24 = -1`, and the assertion `0 <= overlap` fails at the next loop head. -/
theorem overlap_negative_after_trailing_header :
    (norm_of ScanState.init "ACCAAAAAAAAAAAAAAAAAAAA\n>h\n".toList).len = 23 ∧
    (norm_of ScanState.init "ACCAAAAAAAAAAAAAAAAAAAA\n>h\n".toList).separator_indices = [24] ∧
    (scan_iteration ScanState.init "ACCAAAAAAAAAAAAAAAAAAAA\n>h\n".toList).map
        (fun st => st.overlap) = some (-1) ∧
    read_loop ScanState.init ["ACCAAAAAAAAAAAAAAAAAAAA\n>h\n".toList] = none ∧
    scan_stdin false ["ACCAAAAAAAAAAAAAAAAAAAA\n>h\n".toList] = none := by
  refine ⟨by decide, by decide, by decide, ?_, by decide⟩
  have h : (read_loop ScanState.init ["ACCAAAAAAAAAAAAAAAAAAAA\n>h\n".toList]).isNone = true := by
    decide
  exact Option.isNone_iff_eq_none.1 h

set_option maxRecDepth 1000000 in
/-- C19, counterexample to the claim as stated: one read returns two consecutive header
lines.  Both newlines record the separator `len + 1 = 1`, so `separator_indices` is
`[1, 1]`, which is not strictly increasing. -/
theorem separators_repeat :
    (norm_of ScanState.init ">a\n>b\n".toList).separator_indices = [1, 1] ∧
    [1, 1] ∈ separator_trace ScanState.init [">a\n>b\n".toList] ∧
    ¬ ([1, 1] : List Nat).Sorted (· < ·) := by
  refine ⟨by decide, by decide, by decide⟩

/-! ## Complement involution and order of the encoding -/

theorem laneOf_comp {c : Char} (h : IsBase c) : laneOf (comp_base c) = 6 - laneOf c := by
  rcases h with h | h | h | h | h <;> subst h <;> decide

theorem comp_base_isBase {c : Char} (h : IsBase c) : IsBase (comp_base c) := by
  rcases h with h | h | h | h | h <;> subst h <;> decide

theorem comp_base_comp (c : Char) : comp_base (comp_base c) = c := by
  unfold comp_base
  by_cases hA : c = 'A'
  · subst hA; decide
  by_cases hT : c = 'T'
  · subst hT; decide
  by_cases hC : c = 'C'
  · subst hC; decide
  by_cases hG : c = 'G'
  · subst hG; decide
  simp [hA, hT, hC, hG]

theorem complement_encode_map (s : List Char) (hlen : s.length = k - 3)
    (hs : ∀ c ∈ s, IsBase c) :
    complement (encode (k - 3) (ptr s)) = encode (k - 3) (ptr (s.map comp_base)) := by
  have hl : (s.map laneOf).length = k - 3 := by rw [List.length_map, hlen]
  have h6 : ∀ d ∈ s.map laneOf, d ≤ 6 := by
    intro d hd
    obtain ⟨c, -, rfl⟩ := List.mem_map.1 hd
    have := laneOf_le c; omega
  have e1 : encode (k - 3) (ptr s) = ((pack (s.map laneOf) : Nat) : Int) := by
    rw [← hlen, encode_ptr]
  have e2 : encode (k - 3) (ptr (s.map comp_base))
      = ((pack ((s.map comp_base).map laneOf) : Nat) : Int) := by
    have := encode_ptr (s.map comp_base)
    rwa [List.length_map, hlen] at this
  rw [e1, e2, complement_pack _ hl h6, List.map_map, List.map_map]
  congr 2
  exact List.map_congr_left (fun c hc => (laneOf_comp (hs c hc)).symm)

/-- C15 (complement involution): for every valid packed code `x` (`k-3` lanes, each the
code of one of A, C, G, T, N), `complement(complement(x)) = x`, and `complement(x)` is
again a valid packed code. -/
theorem complement_involution (x : Int) (hx : ValidCode x) :
    complement (complement x) = x ∧ ValidCode (complement x) := by
  constructor
  · unfold complement; ring
  · obtain ⟨s, hlen, hs, rfl⟩ := hx
    refine ⟨s.map comp_base, by rw [List.length_map, hlen], ?_, complement_encode_map s hlen hs⟩
    intro c hc
    obtain ⟨d, hd, rfl⟩ := List.mem_map.1 hc
    exact comp_base_isBase (hs d hd)

theorem complement_involution_witness :
    ValidCode (encode (k - 3) (ptr "ACGTGGTGGCAATNCACGGN".toList)) ∧
    complement (complement (encode (k - 3) (ptr "ACGTGGTGGCAATNCACGGN".toList)))
      = encode (k - 3) (ptr "ACGTGGTGGCAATNCACGGN".toList) ∧
    ValidCode (complement (encode (k - 3) (ptr "ACGTGGTGGCAATNCACGGN".toList))) :=
  ⟨⟨"ACGTGGTGGCAATNCACGGN".toList, by decide, by decide, rfl⟩,
    complement_involution (encode (k - 3) (ptr "ACGTGGTGGCAATNCACGGN".toList))
      ⟨"ACGTGGTGGCAATNCACGGN".toList, by decide, by decide, rfl⟩⟩

theorem laneOf_lt_iff {a b : Char} (ha : IsBase a) (hb : IsBase b) :
    laneOf a < laneOf b ↔ base_rank a < base_rank b := by
  rcases ha with h | h | h | h | h <;> subst h <;>
    rcases hb with h | h | h | h | h <;> subst h <;> decide

theorem laneOf_inj {a b : Char} (ha : IsBase a) (hb : IsBase b) (h : laneOf a = laneOf b) :
    a = b := by
  revert h
  rcases ha with h | h | h | h | h <;> subst h <;>
    rcases hb with h | h | h | h | h <;> subst h <;> decide

theorem pack_lanes_lt_iff : ∀ (s t : List Char), s.length = t.length →
    (∀ c ∈ s, IsBase c) → (∀ c ∈ t, IsBase c) →
    (pack (s.map laneOf) < pack (t.map laneOf) ↔ lex_before s t)
  | [], [], _, _, _ => by simp [pack, lex_before]
  | [], _ :: _, h, _, _ => by simp at h
  | _ :: _, [], h, _, _ => by simp at h
  | a :: s, b :: t, h, hs, ht => by
    have hlen : s.length = t.length := by simpa using h
    have ih := pack_lanes_lt_iff s t hlen (fun c hc => hs c (by simp [hc]))
      (fun c hc => ht c (by simp [hc]))
    have ha := hs a (by simp)
    have hb := ht b (by simp)
    have hps : pack (s.map laneOf) < 8 ^ s.length := by
      have := pack_lt (s.map laneOf) (fun d hd => by
        obtain ⟨c, -, rfl⟩ := List.mem_map.1 hd
        have := laneOf_le c; omega)
      rwa [List.length_map] at this
    have hpt : pack (t.map laneOf) < 8 ^ s.length := by
      have := pack_lt (t.map laneOf) (fun d hd => by
        obtain ⟨c, -, rfl⟩ := List.mem_map.1 hd
        have := laneOf_le c; omega)
      rwa [List.length_map, ← hlen] at this
    simp only [List.map_cons, pack_cons, List.length_map, lex_before]
    rw [← hlen, ← laneOf_lt_iff ha hb, ← ih]
    generalize pack (s.map laneOf) = ps at *
    generalize pack (t.map laneOf) = pt at *
    generalize (8 : Nat) ^ s.length = m at *
    constructor
    · intro hlt
      rcases Nat.lt_trichotomy (laneOf a) (laneOf b) with h1 | h1 | h1
      · exact Or.inl h1
      · refine Or.inr ⟨laneOf_inj ha hb h1, ?_⟩
        rw [h1] at hlt
        omega
      · exfalso
        have : (laneOf b + 1) * m ≤ laneOf a * m := Nat.mul_le_mul_right m h1
        nlinarith
    · rintro (h1 | ⟨h1, h2⟩)
      · have : (laneOf a + 1) * m ≤ laneOf b * m := Nat.mul_le_mul_right m h1
        nlinarith
      · rw [h1]; omega

theorem pack_lanes_inj : ∀ (s t : List Char), s.length = t.length →
    (∀ c ∈ s, IsBase c) → (∀ c ∈ t, IsBase c) →
    pack (s.map laneOf) = pack (t.map laneOf) → s = t := by
  intro s t hlen hs ht hpk
  have hiff := pack_lanes_lt_iff s t hlen hs ht
  have hiff2 := pack_lanes_lt_iff t s hlen.symm ht hs
  have h1 : ¬ lex_before s t := fun h => by
    have := hiff.2 h; omega
  have h2 : ¬ lex_before t s := fun h => by
    have := hiff2.2 h; omega
  clear hiff hiff2 hpk
  induction s generalizing t with
  | nil =>
    cases t with
    | nil => rfl
    | cons b t => simp at hlen
  | cons a s ih =>
    cases t with
    | nil => simp at hlen
    | cons b t =>
      simp only [lex_before, not_or, not_and] at h1 h2
      have hab : base_rank a = base_rank b := by omega
      have ha := hs a (by simp)
      have hb := ht b (by simp)
      have : a = b := by
        revert hab
        rcases ha with h | h | h | h | h <;> subst h <;>
          rcases hb with h | h | h | h | h <;> subst h <;> decide
      subst this
      congr 1
      exact ih t (by simpa using hlen) (fun c hc => hs c (by simp [hc]))
        (fun c hc => ht c (by simp [hc])) (h1.2 rfl) (h2.2 rfl)

theorem pack_lanes_int64 (s : List Char) (hL : s.length ≤ 21) :
    pack (s.map laneOf) < 2 ^ 63 := by
  have h1 := pack_lt (s.map laneOf) (fun d hd => by
    obtain ⟨c, -, rfl⟩ := List.mem_map.1 hd
    have := laneOf_le c; omega)
  rw [List.length_map] at h1
  have h2 : (8 : Nat) ^ s.length ≤ 8 ^ 21 := Nat.pow_le_pow_right (by norm_num) hL
  have h3 : (8 : Nat) ^ 21 = 2 ^ 63 := by norm_num
  omega

/-- C16 (order preservation of the encoding): for every two strings `s` and `t` of the
same length `L ≤ 21` over {A,C,G,T,N} (the lengths that `assert(k <= 24)` admits for
`encode<k-3>`, whose packed codes fit an `int64_t`), both codes lie in `[0, 2^63)`,
`encode(s) < encode(t)` as integers if and only if `s` precedes `t` lexicographically under
the base order A < C < N < G < T, and `encode` is injective on such strings. -/
theorem encode_order (s t : List Char) (hlen : s.length = t.length) (hL : s.length ≤ 21)
    (hs : ∀ c ∈ s, IsBase c) (ht : ∀ c ∈ t, IsBase c) :
    (0 ≤ encode s.length (ptr s) ∧ encode s.length (ptr s) < 2 ^ 63) ∧
    (0 ≤ encode s.length (ptr t) ∧ encode s.length (ptr t) < 2 ^ 63) ∧
    (encode s.length (ptr s) < encode s.length (ptr t) ↔ lex_before s t) ∧
    (encode s.length (ptr s) = encode s.length (ptr t) → s = t) := by
  have e1 := encode_ptr s
  have e2 := encode_ptr t
  rw [← hlen] at e2
  have b1 := pack_lanes_int64 s hL
  have b2 := pack_lanes_int64 t (by rw [← hlen]; exact hL)
  rw [e1, e2]
  refine ⟨⟨by positivity, by exact_mod_cast b1⟩, ⟨by positivity, by exact_mod_cast b2⟩, ?_, ?_⟩
  · rw [Int.ofNat_lt]
    exact pack_lanes_lt_iff s t hlen hs ht
  · intro heq
    exact pack_lanes_inj s t hlen hs ht (by exact_mod_cast heq)

theorem encode_order_witness :
    ("ACNT".toList.length = "ACGA".toList.length ∧ "ACNT".toList.length ≤ 21 ∧
      (∀ c ∈ "ACNT".toList, IsBase c) ∧ (∀ c ∈ "ACGA".toList, IsBase c)) ∧
    (encode "ACNT".toList.length (ptr "ACNT".toList)
        < encode "ACNT".toList.length (ptr "ACGA".toList)
      ↔ lex_before "ACNT".toList "ACGA".toList) :=
  ⟨⟨by decide, by decide, by decide, by decide⟩,
    (encode_order "ACNT".toList "ACGA".toList (by decide) (by decide) (by decide)
      (by decide)).2.2.1⟩

/-! ## Output ordering -/

theorem validCode_decode {x : Int} (hx : ValidCode x) : (decode (k - 3) x).isSome := by
  obtain ⟨s, hlen, hs, rfl⟩ := hx
  rw [decode_encode_ptr s hlen hs]
  rfl

theorem validCode_guide_inj {x y : Int} (hx : ValidCode x) (hy : ValidCode y)
    (h : (decode (k - 3) x).getD [] = (decode (k - 3) y).getD []) : x = y := by
  obtain ⟨s, hlen, hs, rfl⟩ := hx
  obtain ⟨t, hlen2, ht, rfl⟩ := hy
  rw [decode_encode_ptr s hlen hs, decode_encode_ptr t hlen2 ht] at h
  simp only [Option.getD_some] at h
  rw [h]

theorem encode_decode_valid {x : Int} (hx : ValidCode x) :
    encode (k - 3) (ptr ((decode (k - 3) x).getD [])) = x := by
  obtain ⟨s, hlen, hs, rfl⟩ := hx
  rw [decode_encode_ptr s hlen hs]
  rfl

theorem decode_getD_valid {x : Int} (hx : ValidCode x) :
    decode (k - 3) x = some ((decode (k - 3) x).getD []) := by
  obtain ⟨g, hg⟩ := Option.isSome_iff_exists.1 (validCode_decode hx)
  rw [hg]; rfl

/-- C11 (output ordering): for every list of candidate codes (valid packed codes), the
output stage of `scan_stdin` writes lines whose guides, read back as packed codes, are
strictly ascending: each line's code is greater than the previous line's, these codes are
exactly the candidate codes, every line is the rendering of its code, and no two lines
carry the same guide. -/
theorem output_ordering (output_counts : Bool) (results : List Int)
    (hvalid : ∀ x ∈ results, ValidCode x) :
    ∃ lines : List OutputLine,
      output_stage output_counts results = some lines ∧
      (lines.map (fun l => encode (k - 3) (ptr l.guide))).Sorted (· < ·) ∧
      (∀ c, c ∈ lines.map (fun l => encode (k - 3) (ptr l.guide)) ↔ c ∈ results) ∧
      (∀ l ∈ lines, decode (k - 3) (encode (k - 3) (ptr l.guide)) = some l.guide) ∧
      (lines.map (fun l => l.guide)).Nodup := by
  have hsorted : ((results.insertionSort (· ≤ ·)).dedup).Sorted (· < ·) :=
    List.Sorted.lt_of_le
      (List.Pairwise.sublist (List.dedup_sublist _) (List.sorted_insertionSort _ _))
      (List.nodup_dedup _)
  have hmem : ∀ x, x ∈ (results.insertionSort (· ≤ ·)).dedup ↔ x ∈ results := by
    intro x
    rw [List.mem_dedup, List.mem_insertionSort]
  have hcodes : ((results.insertionSort (· ≤ ·)).dedup.map
      (fun x => line_of output_counts x (int32 ((results.count x : Nat) : Int)))).map
        (fun l => encode (k - 3) (ptr l.guide))
      = (results.insertionSort (· ≤ ·)).dedup := by
    rw [List.map_map]
    conv_rhs => rw [← List.map_id ((results.insertionSort (· ≤ ·)).dedup)]
    apply List.map_congr_left
    intro x hx
    exact encode_decode_valid (hvalid x ((hmem x).1 hx))
  refine ⟨_, output_stage_eq output_counts results
    (fun x hx => validCode_decode (hvalid x hx)), ?_, ?_, ?_, ?_⟩
  · rw [hcodes]; exact hsorted
  · intro c
    rw [hcodes]; exact hmem c
  · intro l hl
    obtain ⟨x, hx, rfl⟩ := List.mem_map.1 hl
    have hv := hvalid x ((hmem x).1 hx)
    show decode (k - 3) (encode (k - 3) (ptr ((decode (k - 3) x).getD [])))
      = some ((decode (k - 3) x).getD [])
    rw [encode_decode_valid hv]
    exact decode_getD_valid hv
  · rw [List.map_map]
    refine List.Nodup.map_on ?_ (List.nodup_dedup _)
    intro x hx y hy h
    exact validCode_guide_inj (hvalid x ((hmem x).1 hx)) (hvalid y ((hmem y).1 hy)) h

theorem output_ordering_witness :
    (∀ x ∈ [encode (k - 3) (ptr "TGCACCACCGTTACGTGCCA".toList),
        encode (k - 3) (ptr "ACGTGGTGGCAATGCACGGT".toList),
        encode (k - 3) (ptr "TGCACCACCGTTACGTGCCA".toList)], ValidCode x) ∧
    ∃ lines : List OutputLine,
      output_stage true [encode (k - 3) (ptr "TGCACCACCGTTACGTGCCA".toList),
          encode (k - 3) (ptr "ACGTGGTGGCAATGCACGGT".toList),
          encode (k - 3) (ptr "TGCACCACCGTTACGTGCCA".toList)] = some lines ∧
      (lines.map (fun l => encode (k - 3) (ptr l.guide))).Sorted (· < ·) ∧
      (∀ c, c ∈ lines.map (fun l => encode (k - 3) (ptr l.guide)) ↔
        c ∈ [encode (k - 3) (ptr "TGCACCACCGTTACGTGCCA".toList),
          encode (k - 3) (ptr "ACGTGGTGGCAATGCACGGT".toList),
          encode (k - 3) (ptr "TGCACCACCGTTACGTGCCA".toList)]) ∧
      (∀ l ∈ lines, decode (k - 3) (encode (k - 3) (ptr l.guide)) = some l.guide) ∧
      (lines.map (fun l => l.guide)).Nodup :=
  have hv : ∀ x ∈ [encode (k - 3) (ptr "TGCACCACCGTTACGTGCCA".toList),
      encode (k - 3) (ptr "ACGTGGTGGCAATGCACGGT".toList),
      encode (k - 3) (ptr "TGCACCACCGTTACGTGCCA".toList)], ValidCode x := by
    intro x hx
    simp only [List.mem_cons, List.mem_singleton, List.not_mem_nil, or_false] at hx
    rcases hx with h | h | h
    · exact ⟨"TGCACCACCGTTACGTGCCA".toList, by decide, by decide, h⟩
    · exact ⟨"ACGTGGTGGCAATGCACGGT".toList, by decide, by decide, h⟩
    · exact ⟨"TGCACCACCGTTACGTGCCA".toList, by decide, by decide, h⟩
  ⟨hv, output_ordering true _ hv⟩

/-! ## No wildcard in the output -/

theorem fill_variant_no_N (g : List Char) (n : Nat) (h : 'N' ∉ g) : fill_variant g n = g := by
  induction g with
  | nil => rfl
  | cons c g ih =>
    have hc : c ≠ 'N' := fun e => h (by simp [e])
    have hg : 'N' ∉ g := fun e => h (by simp [e])
    simp only [fill_variant]
    rw [if_neg hc, ih hg]

theorem guideOf_length (direction : Bool) (bufi : Nat → Char) :
    (guideOf direction bufi).length = k - 3 := by
  unfold guideOf
  rw [List.length_map, List.length_range]

theorem emit_code_variant (direction : Bool) (g : List Char) (hlen : g.length = k - 3)
    (n : Nat) :
    emit_code direction (variant (ptr g) ((n : Nat) : Int))
      = emit_code direction (ptr (fill_variant g n)) := by
  unfold emit_code
  rw [encode_congr (k - 3) _ _ (fun x hx => variant_eq_fill g hlen n x hx)]

theorem try_match_fills (direction : Bool) (cog : Char) (bufi : Nat → Char)
    (hcog : cog ≠ 'N') :
    try_match direction cog [] bufi =
      if pamPresent direction cog bufi ∧
          countN (pamOf direction bufi) + countN (guideOf direction bufi) ≤ max_N then
        (List.range (4 ^ (guideOf direction bufi).count 'N')).map
          (fun n => emit_code direction (ptr (fill_variant (guideOf direction bufi) n)))
      else [] := by
  rw [try_match_eq direction cog [] bufi hcog]
  by_cases h1 : pamPresent direction cog bufi
  · rw [if_pos h1]
    by_cases h2 : countN (pamOf direction bufi) + countN (guideOf direction bufi) ≤ max_N
    · have h12 : pamPresent direction cog bufi ∧
          countN (pamOf direction bufi) + countN (guideOf direction bufi) ≤ max_N := ⟨h1, h2⟩
      rw [if_pos h2, if_pos h12]
      have hp0 := countN_nonneg (pamOf direction bufi)
      by_cases h3 : countN (guideOf direction bufi) > 0
      · rw [if_pos h3, emit_all_variants_eq, List.nil_append]
        have hw : (guideOf direction bufi).count 'N' ≤ 15 := by
          unfold countN max_N at *
          omega
        have e : countN (guideOf direction bufi)
            = (((guideOf direction bufi).count 'N' : Nat) : Int) := rfl
        rw [e, number_variants_eq _ hw]
        apply List.map_congr_left
        intro n _
        exact emit_code_variant direction _ (guideOf_length direction bufi) n
      · rw [if_neg h3, emit_eq, List.nil_append]
        have h0 : (guideOf direction bufi).count 'N' = 0 := by
          unfold countN at h3; omega
        rw [h0, pow_zero, show List.range 1 = [0] from rfl, List.map_cons, List.map_nil,
          fill_variant_no_N _ 0 (List.count_eq_zero.1 h0)]
    · rw [if_neg h2, if_neg (fun h => h2 h.2)]
  · rw [if_neg h1, if_neg (fun h => h1 h.1)]

theorem mem_fills_iff (direction : Bool) (g : List Char) (x : Int) :
    x ∈ (List.range (4 ^ g.count 'N')).map
        (fun n => emit_code direction (ptr (fill_variant g n)))
      ↔ ∃ v, IsFill g v ∧ x = emit_code direction (ptr v) := by
  constructor
  · intro h
    obtain ⟨n, -, rfl⟩ := List.mem_map.1 h
    exact ⟨fill_variant g n, isFill_fill_variant g n, rfl⟩
  · rintro ⟨v, hv, rfl⟩
    obtain ⟨n, hn, rfl⟩ := fill_variant_surj g v hv
    exact List.mem_map.2 ⟨n, List.mem_range.2 hn, rfl⟩

theorem fills_nodup (direction : Bool) (g : List Char) (hlen : g.length = k - 3)
    (halpha : ∀ c ∈ g, IsBase c) :
    ((List.range (4 ^ g.count 'N')).map
      (fun n => emit_code direction (ptr (fill_variant g n)))).Nodup := by
  refine List.Nodup.map_on ?_ (List.nodup_range _)
  intro n hn m hm h
  have f1 := isFill_fill_variant g n
  have f2 := isFill_fill_variant g m
  have := emit_code_inj direction _ _
    (by rw [isFill_length g _ f1, hlen]) (by rw [isFill_length g _ f2, hlen])
    (fun c hc => (isFill_base g _ halpha f1 c hc).1)
    (fun c hc => (isFill_base g _ halpha f2 c hc).1) h
  exact fill_variant_inj g n m (List.mem_range.1 hn) (List.mem_range.1 hm) this

theorem emit_code_lane_base (direction : Bool) (v : List Char) (hv : v.length = k - 3)
    (hb : ∀ c ∈ v, IsBase c ∧ c ≠ 'N') (i : Nat) (hi : i < k - 3) :
    lane (k - 3) (emit_code direction (ptr v)) i = 1 ∨
    lane (k - 3) (emit_code direction (ptr v)) i = 2 ∨
    lane (k - 3) (emit_code direction (ptr v)) i = 4 ∨
    lane (k - 3) (emit_code direction (ptr v)) i = 5 := by
  have hi2 : i < v.length := by rw [hv]; exact hi
  have hmem : v.getD i (Char.ofNat 0) ∈ v := by
    rw [List.getD_eq_getElem?_getD, List.getElem?_eq_getElem hi2]
    exact List.getElem_mem _
  obtain ⟨hbase, hn⟩ := hb _ hmem
  have hl : (laneOf (v.getD i (Char.ofNat 0)) = 1 ∨ laneOf (v.getD i (Char.ofNat 0)) = 2 ∨
      laneOf (v.getD i (Char.ofNat 0)) = 4 ∨ laneOf (v.getD i (Char.ofNat 0)) = 5) := by
    rcases hbase with h | h | h | h | h
    · rw [h]; exact Or.inl (by decide)
    · rw [h]; exact Or.inr (Or.inl (by decide))
    · rw [h]; exact Or.inr (Or.inr (Or.inl (by decide)))
    · rw [h]; exact Or.inr (Or.inr (Or.inr (by decide)))
    · exact absurd h hn
  unfold emit_code
  by_cases hd : direction = reverse_complement
  · rw [if_pos hd, lane_complement_ptr v hv i hi]
    rcases hl with h | h | h | h <;> rw [h]
    · exact Or.inr (Or.inr (Or.inr rfl))
    · exact Or.inr (Or.inr (Or.inl rfl))
    · exact Or.inr (Or.inl rfl)
    · exact Or.inl rfl
  · rw [if_neg hd, lane_encode_ptr v hv i hi]
    rcases hl with h | h | h | h <;> rw [h]
    · exact Or.inl rfl
    · exact Or.inr (Or.inl rfl)
    · exact Or.inr (Or.inr (Or.inl rfl))
    · exact Or.inr (Or.inr (Or.inr rfl))

theorem mem_guideOf (direction : Bool) (bufi : Nat → Char) (c : Char)
    (hc : c ∈ guideOf direction bufi) : ∃ x, x < k ∧ c = bufi x := by
  unfold guideOf at hc
  obtain ⟨j, hj, rfl⟩ := List.mem_map.1 hc
  have hj' : j < k - 3 := List.mem_range.1 hj
  exact ⟨index direction j, index_lt direction j (by unfold k at *; omega), rfl⟩

theorem try_match_lanes (direction : Bool) (cog : Char) (bufi : Nat → Char)
    (hcog : cog ≠ 'N') (halpha : ∀ x, x < k → IsBase (bufi x)) (code : Int)
    (hcode : code ∈ try_match direction cog [] bufi) (i : Nat) (hi : i < k - 3) :
    lane (k - 3) code i = 1 ∨ lane (k - 3) code i = 2 ∨ lane (k - 3) code i = 4 ∨
      lane (k - 3) code i = 5 := by
  rw [try_match_fills direction cog bufi hcog] at hcode
  by_cases h : pamPresent direction cog bufi ∧
      countN (pamOf direction bufi) + countN (guideOf direction bufi) ≤ max_N
  · rw [if_pos h] at hcode
    obtain ⟨v, hv, rfl⟩ := (mem_fills_iff direction _ code).1 hcode
    have hg : ∀ c ∈ guideOf direction bufi, IsBase c := by
      intro c hc
      obtain ⟨x, hx, rfl⟩ := mem_guideOf direction bufi c hc
      exact halpha x hx
    exact emit_code_lane_base direction v
      (by rw [isFill_length _ v hv, guideOf_length]) (isFill_base _ v hg hv) i hi
  · rw [if_neg h] at hcode
    exact absurd hcode (List.not_mem_nil _)

/-- C14 (no wildcard in the output): `expand_N_variants` is true, and for every buffer
over {A,C,G,T,N} every code appended by `scan_for_kmers` has each of its `k-3` lanes in
{1,2,4,5}, never the N code 3. -/
theorem no_wildcard_in_output (results : List Int) (buf : Nat → Char) (len : Nat)
    (halpha : ∀ x, x < len → IsBase (buf x)) :
    expand_N_variants = true ∧
    ∃ added, scan_for_kmers results buf len = results ++ added ∧
      ∀ code ∈ added, ∀ i, i < k - 3 →
        (lane (k - 3) code i = 1 ∨ lane (k - 3) code i = 2 ∨ lane (k - 3) code i = 4 ∨
          lane (k - 3) code i = 5) := by
  refine ⟨rfl, _, scan_for_kmers_eq results buf len, ?_⟩
  intro code hcode i hi
  rw [List.mem_flatMap] at hcode
  obtain ⟨j, hj, hc⟩ := hcode
  have hj2 := (List.mem_range'_1.1 hj).2
  have hk : k = 23 := rfl
  have hwin : ∀ x, x < k → IsBase (offset buf j x) := by
    intro x hx
    exact halpha (j + x) (by rw [hk] at hj2 hx; omega)
  unfold site at hc
  rw [try_match_append reverse_complement 'C' _ _ (by decide), List.mem_append] at hc
  rcases hc with hc | hc
  · exact try_match_lanes forward_direction 'G' _ (by decide) hwin code hc i hi
  · exact try_match_lanes reverse_complement 'C' _ (by decide) hwin code hc i hi

theorem no_wildcard_in_output_witness :
    (∀ x, x < 26 → IsBase (ptr "CCNACGTGGTGGCAATNCACGGTAGG".toList x)) ∧
    ∃ added, scan_for_kmers [] (ptr "CCNACGTGGTGGCAATNCACGGTAGG".toList) 26 = [] ++ added ∧
      ∀ code ∈ added, ∀ i, i < k - 3 →
        (lane (k - 3) code i = 1 ∨ lane (k - 3) code i = 2 ∨ lane (k - 3) code i = 4 ∨
          lane (k - 3) code i = 5) :=
  ⟨by decide,
    (no_wildcard_in_output [] (ptr "CCNACGTGGTGGCAATNCACGGTAGG".toList) 26 (by decide)).2⟩

/-! ## Canonical orientation -/

theorem comp_base_eq_N (c : Char) : comp_base c = 'N' ↔ c = 'N' := by
  constructor
  · intro h
    have := comp_base_comp c
    rw [h] at this
    rw [← this]; decide
  · intro h; rw [h]; decide

theorem comp_base_eq_C (c : Char) : comp_base c = 'C' ↔ c = 'G' := by
  constructor
  · intro h
    have := comp_base_comp c
    rw [h] at this
    rw [← this]; decide
  · intro h; rw [h]; decide

theorem comp_base_mem_bases {d : Char} (h : d ∈ bases) : comp_base d ∈ bases := by
  simp only [bases, List.mem_cons, List.mem_singleton, List.not_mem_nil, or_false] at h
  rcases h with h | h | h | h <;> subst h <;> decide

theorem map_comp_comp (l : List Char) : (l.map comp_base).map comp_base = l := by
  rw [List.map_map]
  calc l.map (comp_base ∘ comp_base) = l.map id :=
        List.map_congr_left (fun c _ => comp_base_comp c)
    _ = l := List.map_id l

theorem countN_map_comp (l : List Char) : countN (l.map comp_base) = countN l := by
  unfold countN
  congr 1
  induction l with
  | nil => rfl
  | cons c l ih =>
    rw [List.map_cons, List.count_cons, List.count_cons, ih]
    by_cases h : c = 'N'
    · rw [if_pos (by rw [h]; decide), if_pos (by rw [h]; decide)]
    · have h2 : comp_base c ≠ 'N' := fun e => h ((comp_base_eq_N c).1 e)
      rw [if_neg (by simpa using h2), if_neg (by simpa using h)]

theorem count_N_map_comp (l : List Char) : (l.map comp_base).count 'N' = l.count 'N' := by
  have := countN_map_comp l
  unfold countN at this
  exact_mod_cast this

theorem isFill_map_comp : ∀ (g v : List Char), IsFill g v →
    IsFill (g.map comp_base) (v.map comp_base)
  | [], [], _ => trivial
  | [], _ :: _, h => by simp [IsFill] at h
  | _ :: _, [], h => by simp [IsFill] at h
  | c :: g, d :: v, h => by
    simp only [IsFill] at h
    simp only [List.map_cons, IsFill]
    refine ⟨?_, isFill_map_comp g v h.2⟩
    by_cases hc : c = 'N'
    · rw [if_pos ((comp_base_eq_N c).2 hc)]
      have := h.1
      rw [if_pos hc] at this
      exact comp_base_mem_bases this
    · rw [if_neg (fun e => hc ((comp_base_eq_N c).1 e))]
      have := h.1
      rw [if_neg hc] at this
      rw [this]

theorem ptr_revcomp (w : List Char) (hlen : w.length = k) (x : Nat) (hx : x < k) :
    ptr (w.reverse.map comp_base) (k - 1 - x) = comp_base (ptr w x) := by
  have hk : k = 23 := rfl
  unfold ptr
  have h1 : k - 1 - x < w.reverse.length := by
    rw [List.length_reverse, hlen, hk]; rw [hk] at hx; omega
  have h2 : x < w.length := by rw [hlen]; exact hx
  rw [List.getD_eq_getElem?_getD, List.getD_eq_getElem?_getD, List.getElem?_map,
    List.getElem?_eq_getElem h1, List.getElem?_eq_getElem h2, List.getElem_reverse]
  simp only [Option.map_some', Option.getD_some]
  congr 2
  rw [hlen, hk]; rw [hk] at hx; omega

theorem guideOf_revcomp (w : List Char) (hlen : w.length = k) :
    guideOf reverse_complement (ptr (w.reverse.map comp_base))
      = (guideOf forward_direction (ptr w)).map comp_base := by
  have hk : k = 23 := rfl
  unfold guideOf
  rw [List.map_map]
  apply List.map_congr_left
  intro j hj
  have hj' : j < k - 3 := List.mem_range.1 hj
  have e1 : index reverse_complement j = k - 1 - j := rfl
  have e2 : index forward_direction j = j := rfl
  simp only [Function.comp, e1, e2]
  exact ptr_revcomp w hlen j (by rw [hk] at hj' ⊢; omega)

theorem pamOf_revcomp (w : List Char) (hlen : w.length = k) :
    pamOf reverse_complement (ptr (w.reverse.map comp_base))
      = (pamOf forward_direction (ptr w)).map comp_base := by
  unfold pamOf
  have e0 : index (!reverse_complement) 0 = k - 1 - (k - 1) := rfl
  have e1 : index (!reverse_complement) 1 = k - 1 - (k - 2) := rfl
  have f0 : index (!forward_direction) 0 = k - 1 := rfl
  have f1 : index (!forward_direction) 1 = k - 2 := rfl
  rw [e0, e1, f0, f1, ptr_revcomp w hlen (k - 1) (by decide),
    ptr_revcomp w hlen (k - 2) (by decide)]
  rfl

theorem pamPresent_revcomp (w : List Char) (hlen : w.length = k) :
    pamPresent reverse_complement 'C' (ptr (w.reverse.map comp_base))
      ↔ pamPresent forward_direction 'G' (ptr w) := by
  unfold pamPresent
  rw [pamOf_revcomp w hlen]
  constructor
  · intro h c hc
    have := h (comp_base c) (List.mem_map.2 ⟨c, hc, rfl⟩)
    rw [comp_base_eq_C, comp_base_eq_N] at this
    exact this
  · intro h c hc
    obtain ⟨d, hd, rfl⟩ := List.mem_map.1 hc
    rw [comp_base_eq_C, comp_base_eq_N]
    exact h d hd

/-- C13 (canonical orientation): for every window `w` of `k` bases over {A,C,G,T,N}, the
codes that the reverse check `try_match<reverse_complement,'C'>` appends on the reverse
complement of `w` are, as a multiset, the codes that the forward check
`try_match<forward_direction,'G'>` appends on `w`, wildcard expansion included. -/
theorem strand_symmetry (results_r results_f : List Int) (w : List Char)
    (hlen : w.length = k) (halpha : ∀ c ∈ w, IsBase c) :
    ∃ added_r added_f,
      try_match reverse_complement 'C' results_r (ptr (w.reverse.map comp_base))
        = results_r ++ added_r ∧
      try_match forward_direction 'G' results_f (ptr w) = results_f ++ added_f ∧
      added_r.Perm added_f := by
  refine ⟨_, _, try_match_append reverse_complement 'C' results_r _ (by decide),
    try_match_append forward_direction 'G' results_f _ (by decide), ?_⟩
  rw [try_match_fills reverse_complement 'C' _ (by decide),
    try_match_fills forward_direction 'G' _ (by decide), guideOf_revcomp w hlen,
    pamOf_revcomp w hlen, countN_map_comp, countN_map_comp, count_N_map_comp]
  have hg : ∀ c ∈ guideOf forward_direction (ptr w), IsBase c := by
    intro c hc
    obtain ⟨x, hx, rfl⟩ := mem_guideOf forward_direction (ptr w) c hc
    have hx2 : x < w.length := by rw [hlen]; exact hx
    unfold ptr
    rw [List.getD_eq_getElem?_getD, List.getElem?_eq_getElem hx2]
    exact halpha _ (List.getElem_mem _)
  have hgl := guideOf_length forward_direction (ptr w)
  have hgc : ∀ c ∈ (guideOf forward_direction (ptr w)).map comp_base, IsBase c := by
    intro c hc
    obtain ⟨d, hd, rfl⟩ := List.mem_map.1 hc
    exact comp_base_isBase (hg d hd)
  by_cases hc : pamPresent forward_direction 'G' (ptr w) ∧
      countN (pamOf forward_direction (ptr w)) + countN (guideOf forward_direction (ptr w))
        ≤ max_N
  · rw [if_pos hc, if_pos ⟨(pamPresent_revcomp w hlen).2 hc.1, hc.2⟩]
    have nR := fills_nodup reverse_complement ((guideOf forward_direction (ptr w)).map comp_base)
      (by rw [List.length_map, hgl]) hgc
    rw [count_N_map_comp] at nR
    have nF := fills_nodup forward_direction (guideOf forward_direction (ptr w)) hgl hg
    refine (List.perm_ext_iff_of_nodup nR nF).2 (fun x => ?_)
    have mR := mem_fills_iff reverse_complement
      ((guideOf forward_direction (ptr w)).map comp_base) x
    rw [count_N_map_comp] at mR
    rw [mR, mem_fills_iff forward_direction (guideOf forward_direction (ptr w)) x]
    constructor
    · rintro ⟨v, hv, rfl⟩
      have hv2 := isFill_map_comp _ _ hv
      rw [map_comp_comp] at hv2
      refine ⟨v.map comp_base, hv2, ?_⟩
      have hvl : v.length = k - 3 := by rw [isFill_length _ v hv, List.length_map, hgl]
      exact complement_encode_map v hvl (fun c hc => (isFill_base _ v hgc hv c hc).1)
    · rintro ⟨v, hv, rfl⟩
      refine ⟨v.map comp_base, isFill_map_comp _ _ hv, ?_⟩
      have hvl : (v.map comp_base).length = k - 3 := by
        rw [List.length_map, isFill_length _ v hv, hgl]
      have := complement_encode_map (v.map comp_base) hvl (fun c hc => by
        obtain ⟨d, hd, rfl⟩ := List.mem_map.1 hc
        exact comp_base_isBase (isFill_base _ v hg hv d hd).1)
      rw [map_comp_comp] at this
      exact this.symm
  · rw [if_neg hc, if_neg (fun h => hc ⟨(pamPresent_revcomp w hlen).1 h.1, h.2⟩)]

theorem strand_symmetry_witness :
    ("ACGTGGTGGCAATNCACGGTANG".toList.length = k ∧
      ∀ c ∈ "ACGTGGTGGCAATNCACGGTANG".toList, IsBase c) ∧
    ∃ added_r added_f,
      try_match reverse_complement 'C' []
          (ptr ("ACGTGGTGGCAATNCACGGTANG".toList.reverse.map comp_base)) = [] ++ added_r ∧
      try_match forward_direction 'G' [] (ptr "ACGTGGTGGCAATNCACGGTANG".toList)
        = [] ++ added_f ∧
      added_r.Perm added_f :=
  ⟨⟨by decide, by decide⟩,
    strand_symmetry [] [] "ACGTGGTGGCAATNCACGGTANG".toList (by decide) (by decide)⟩

/-! ## Expansion order -/

theorem sorted_push (l : List Nat) (b : Nat) (hs : l.Sorted (· ≤ ·))
    (hb : ∀ x ∈ l, x ≤ b) : (l ++ [b]).Sorted (· ≤ ·) := by
  rw [List.Sorted, List.pairwise_append]
  refine ⟨hs, List.pairwise_singleton _ _, ?_⟩
  intro x hx y hy
  rw [List.mem_singleton.1 hy]
  exact hb x hx

theorem normalize_step_inv (s : NormState) (i : Nat) (h : NormInv s) :
    NormInv (normalize_step s i) := by
  obtain ⟨hs, hb⟩ := h
  unfold normalize_step
  by_cases h1 : (s.window i).toUpper = '\n'
  · rw [if_pos h1]
    by_cases h2 : s.chrm_comment = true
    · refine ⟨?_, ?_⟩
      · show (if s.chrm_comment = true then s.separator_indices ++ [s.len + 1]
          else s.separator_indices).Sorted (· ≤ ·)
        rw [if_pos h2]
        exact sorted_push _ _ hs hb
      · show ∀ x ∈ (if s.chrm_comment = true then s.separator_indices ++ [s.len + 1]
          else s.separator_indices), x ≤ s.len + 1
        rw [if_pos h2]
        intro x hx
        rcases List.mem_append.1 hx with hx | hx
        · exact hb x hx
        · rw [List.mem_singleton.1 hx]
    · refine ⟨?_, ?_⟩
      · show (if s.chrm_comment = true then s.separator_indices ++ [s.len + 1]
          else s.separator_indices).Sorted (· ≤ ·)
        rw [if_neg h2]
        exact hs
      · show ∀ x ∈ (if s.chrm_comment = true then s.separator_indices ++ [s.len + 1]
          else s.separator_indices), x ≤ s.len + 1
        rw [if_neg h2]
        exact hb
  · rw [if_neg h1]
    by_cases h2 : (!s.chrm_comment) = true
    · rw [if_pos h2]
      by_cases h3 : (s.window i).toUpper = '>'
      · rw [if_pos h3]
        exact ⟨hs, hb⟩
      · rw [if_neg h3]
        exact ⟨hs, fun x hx => Nat.le_succ_of_le (hb x hx)⟩
    · rw [if_neg h2]
      exact ⟨hs, hb⟩

theorem normalize_trace_inv : ∀ (n i : Nat) (s : NormState), NormInv s →
    (∀ t ∈ normalize_trace n i s, NormInv t) ∧ NormInv (normalize_loop n i s)
  | 0, _, s, h => ⟨fun t ht => absurd ht (List.not_mem_nil _), h⟩
  | n + 1, i, s, h => by
    have h1 := normalize_step_inv s i h
    obtain ⟨h2, h3⟩ := normalize_trace_inv n (i + 1) (normalize_step s i) h1
    refine ⟨?_, h3⟩
    intro t ht
    simp only [normalize_trace, List.mem_cons] at ht
    rcases ht with ht | ht
    · rw [ht]; exact h1
    · exact h2 t ht

theorem sepInv_norm (st : ScanState) (w : Nat → Char) (h : SepInv st) :
    NormInv { window := w, len := st.overlap.toNat, lines := st.lines,
              chrm_comment := st.chrm_comment,
              separator_indices := st.separator_indices } := h

theorem scan_iteration_inv (st st' : ScanState) (chunk : List Char) (h : SepInv st)
    (hst : scan_iteration st chunk = some st') : SepInv st' := by
  have hn : NormInv (norm_of st chunk) :=
    (normalize_trace_inv chunk.length st.overlap.toNat _ (sepInv_norm st _ h)).2
  by_cases h1 : 0 ≤ st.overlap ∧ st.overlap < (k : Int)
  · by_cases h2 : (norm_of st chunk).len < k
    · rw [scan_iteration_short st chunk h1 h2] at hst
      rw [← Option.some.inj hst]
      exact hn
    · unfold scan_iteration at hst
      rw [if_pos h1] at hst
      change (if (norm_of st chunk).len < k then _ else
        (if (norm_of st chunk).separator_indices.length = 0 then _ else
          (if (norm_of st chunk).separator_indices.getLastD 0
              ≥ (norm_of st chunk).len - (k - 1) then _ else _))) = some st' at hst
      rw [if_neg h2] at hst
      by_cases h3 : (norm_of st chunk).separator_indices.length = 0
      · rw [if_pos h3] at hst
        rw [← Option.some.inj hst]
        exact ⟨List.sorted_nil, fun x hx => absurd hx (List.not_mem_nil _)⟩
      · rw [if_neg h3] at hst
        by_cases h4 : (norm_of st chunk).separator_indices.getLastD 0
            ≥ (norm_of st chunk).len - (k - 1)
        · rw [if_pos h4] at hst
          rw [← Option.some.inj hst]
          refine ⟨List.sorted_singleton _, fun x hx => ?_⟩
          rw [List.mem_singleton.1 hx]
          exact Nat.zero_le _
        · rw [if_neg h4] at hst
          rw [← Option.some.inj hst]
          exact ⟨List.sorted_nil, fun x hx => absurd hx (List.not_mem_nil _)⟩
  · unfold scan_iteration at hst
    rw [if_neg h1] at hst
    exact absurd hst (by simp)

theorem separator_trace_inv : ∀ (chunks : List (List Char)) (st : ScanState), SepInv st →
    ∀ seps ∈ separator_trace st chunks, seps.Sorted (· ≤ ·)
  | [], st, h => by
    intro seps hs
    simp only [separator_trace, List.mem_singleton] at hs
    rw [hs]; exact h.1
  | chunk :: rest, st, h => by
    intro seps hs
    simp only [separator_trace, List.mem_cons] at hs
    rcases hs with hs | hs
    · rw [hs]; exact h.1
    · by_cases h0 : chunk.length = 0
      · rw [if_pos h0] at hs
        exact absurd hs (List.not_mem_nil _)
      · rw [if_neg h0] at hs
        cases hst : scan_iteration st chunk with
        | none =>
          rw [hst] at hs
          exact absurd hs (List.not_mem_nil _)
        | some st' =>
          rw [hst] at hs
          rcases List.mem_append.1 hs with hs | hs
          · obtain ⟨t, ht, rfl⟩ := List.mem_map.1 hs
            exact ((normalize_trace_inv chunk.length st.overlap.toNat _
              (sepInv_norm st _ h)).1 t ht).1
          · exact separator_trace_inv rest st' (scan_iteration_inv st st' chunk h hst) seps hs

theorem sepInv_init : SepInv ScanState.init :=
  ⟨List.sorted_nil, fun _ hx => absurd hx (List.not_mem_nil _)⟩

/-- C19 (separator list invariant), amended: at every point of every run of `scan_stdin`,
for every input (two consecutive header lines included) and every chunking, the offsets
held in `separator_indices` are non-decreasing. -/
theorem separators_nondecreasing (chunks : List (List Char)) :
    ∀ seps ∈ separator_trace ScanState.init chunks, seps.Sorted (· ≤ ·) :=
  separator_trace_inv chunks ScanState.init sepInv_init

set_option maxRecDepth 1000000 in
theorem separators_nondecreasing_witness :
    [1, 1] ∈ separator_trace ScanState.init [">a\n>b\nACGT".toList, "AC\n>c\n".toList] ∧
    ([1, 1] : List Nat).Sorted (· ≤ ·) :=
  ⟨by decide,
    separators_nondecreasing [">a\n>b\nACGT".toList, "AC\n>c\n".toList] [1, 1] (by decide)⟩

/-! ## Sentinel safety -/

theorem base_for_bitcode_some (x : Int) (h1 : 1 ≤ x) (h5 : x ≤ 5) :
    ∃ c, base_for_bitcode x = some c := by
  interval_cases x
  · exact ⟨'A', rfl⟩
  · exact ⟨'C', rfl⟩
  · exact ⟨'N', rfl⟩
  · exact ⟨'G', rfl⟩
  · exact ⟨'T', rfl⟩

theorem decode_loop_some (len : Nat) (code : Int)
    (h : ∀ j, j < len → 1 ≤ lane len code j ∧ lane len code j ≤ 5) :
    ∀ (n i : Nat), i + n ≤ len → (decode_loop len code n i).isSome := by
  intro n
  induction n with
  | zero => intro i _; rfl
  | succ n ih =>
    intro i hi
    obtain ⟨c, hc⟩ := base_for_bitcode_some _ (h i (by omega)).1 (h i (by omega)).2
    obtain ⟨rest, hr⟩ := Option.isSome_iff_exists.1 (ih (i + 1) (by omega))
    unfold lane at hc
    simp only [decode_loop, hc, hr]
    rfl

theorem decode_some_of_lanes (code : Int)
    (h : ∀ j, j < k - 3 → 1 ≤ lane (k - 3) code j ∧ lane (k - 3) code j ≤ 5) :
    (decode (k - 3) code).isSome :=
  decode_loop_some (k - 3) code h (k - 3) 0 (by omega)

theorem ne_zero_of_lanes (code : Int)
    (h : ∀ j, j < k - 3 → 1 ≤ lane (k - 3) code j ∧ lane (k - 3) code j ≤ 5) : code ≠ 0 := by
  intro h0
  subst h0
  have h1 := (h 0 (by decide)).1
  have h2 : lane (k - 3) 0 0 = 0 := by decide
  omega

theorem mem_iff_head_of_sorted {x : Int} {rest : List Int}
    (hs : (x :: rest).Sorted (· ≤ ·)) : x ∈ rest ↔ rest.head? = some x := by
  constructor
  · intro hm
    by_contra hh
    exact not_mem_of_sorted_head hs hh hm
  · intro hh
    cases rest with
    | nil => simp at hh
    | cons y r => simp at hh; simp [hh]

theorem unique_loop_sorted :
    ∀ (l : List Int) (last : Int) (guides : Nat), l.Sorted (· ≤ ·) →
      unique_loop l last guides
        = guides + l.dedup.length - (if l.head? = some last then 1 else 0) := by
  intro l
  induction l with
  | nil => intro last guides _; simp [unique_loop]
  | cons x rest ih =>
    intro last guides hs
    have hs' : rest.Sorted (· ≤ ·) := List.Sorted.of_cons hs
    simp only [unique_loop]
    rw [ih x _ hs']
    have hiff := mem_iff_head_of_sorted hs
    have hpos : rest.head? = some x → 1 ≤ rest.dedup.length := by
      intro hh
      have hx : x ∈ rest.dedup := List.mem_dedup.2 (hiff.2 hh)
      exact List.length_pos_of_mem hx
    have hhead : ((x :: rest).head? = some last) ↔ x = last := by simp
    by_cases hm : x ∈ rest
    · have hh := hiff.1 hm
      have := hpos hh
      rw [List.dedup_cons_of_mem hm, if_pos hh]
      by_cases hx : x = last
      · rw [if_neg (not_not.2 hx), if_pos (hhead.2 hx)]
      · rw [if_pos hx, if_neg (fun e => hx (hhead.1 e))]
        omega
    · have hh : ¬ rest.head? = some x := fun e => hm (hiff.2 e)
      rw [List.dedup_cons_of_not_mem hm, if_neg hh, List.length_cons]
      by_cases hx : x = last
      · rw [if_neg (not_not.2 hx), if_pos (hhead.2 hx)]
        omega
      · rw [if_pos hx, if_neg (fun e => hx (hhead.1 e))]
        omega

theorem unique_loop_count (results : List Int) (h0 : (0 : Int) ∉ results) :
    unique_loop (results.insertionSort (· ≤ ·)) 0 0 = results.toFinset.card := by
  have hp := List.perm_insertionSort (· ≤ ·) results
  rw [unique_loop_sorted _ 0 0 (List.sorted_insertionSort _ _)]
  have hh : ¬ (results.insertionSort (· ≤ ·)).head? = some 0 := by
    intro e
    have : (0 : Int) ∈ results.insertionSort (· ≤ ·) := List.mem_of_mem_head? e
    exact h0 (hp.mem_iff.1 this)
  rw [if_neg hh, List.card_toFinset, Nat.zero_add, Nat.sub_zero]
  exact (hp.dedup).length_eq

theorem scan_for_kmers_lanes (buf : Nat → Char) (len : Nat)
    (halpha : ∀ x, x < len → IsBase (buf x)) (code : Int)
    (hcode : code ∈ (List.range' 0 (len + 1 - k)).flatMap (site buf))
    (i : Nat) (hi : i < k - 3) :
    lane (k - 3) code i = 1 ∨ lane (k - 3) code i = 2 ∨ lane (k - 3) code i = 4 ∨
      lane (k - 3) code i = 5 := by
  rw [List.mem_flatMap] at hcode
  obtain ⟨j, hj, hc⟩ := hcode
  have hj2 := (List.mem_range'_1.1 hj).2
  have hk : k = 23 := rfl
  have hwin : ∀ x, x < k → IsBase (offset buf j x) := by
    intro x hx
    exact halpha (j + x) (by rw [hk] at hj2 hx; omega)
  unfold site at hc
  rw [try_match_append reverse_complement 'C' _ _ (by decide), List.mem_append] at hc
  rcases hc with hc | hc
  · exact try_match_lanes forward_direction 'G' _ (by decide) hwin code hc i hi
  · exact try_match_lanes reverse_complement 'C' _ (by decide) hwin code hc i hi

/-- C21 (sentinel safety): for every buffer over {A,C,G,T,N}, every code that
`scan_for_kmers` appends has each of its `k-3` lanes between 1 and 5, so it is not 0 and
`decode` renders it; and when the earlier candidates have such lanes too, the walk of
`scan_stdin` that starts from `last = 0` counts exactly the distinct codes of the candidate
list, which is also the number of lines the output loop writes. -/
theorem sentinel_safety (output_counts : Bool) (results : List Int) (buf : Nat → Char)
    (len : Nat)
    (hres : ∀ code ∈ results, ∀ i, i < k - 3 →
      1 ≤ lane (k - 3) code i ∧ lane (k - 3) code i ≤ 5)
    (halpha : ∀ x, x < len → IsBase (buf x)) :
    ∃ added, scan_for_kmers results buf len = results ++ added ∧
      (∀ code ∈ added, code ≠ 0 ∧
        (∀ i, i < k - 3 → 1 ≤ lane (k - 3) code i ∧ lane (k - 3) code i ≤ 5) ∧
        (decode (k - 3) code).isSome) ∧
      unique_loop ((results ++ added).insertionSort (· ≤ ·)) 0 0
        = (results ++ added).toFinset.card ∧
      ∃ lines, output_stage output_counts (results ++ added) = some lines ∧
        lines.length = (results ++ added).toFinset.card := by
  have hadd : ∀ code ∈ (List.range' 0 (len + 1 - k)).flatMap (site buf), ∀ i, i < k - 3 →
      1 ≤ lane (k - 3) code i ∧ lane (k - 3) code i ≤ 5 := by
    intro code hcode i hi
    rcases scan_for_kmers_lanes buf len halpha code hcode i hi with h | h | h | h <;>
      rw [h] <;> decide
  have hall : ∀ code ∈ results ++ (List.range' 0 (len + 1 - k)).flatMap (site buf),
      ∀ i, i < k - 3 → 1 ≤ lane (k - 3) code i ∧ lane (k - 3) code i ≤ 5 := by
    intro code hcode
    rcases List.mem_append.1 hcode with h | h
    · exact hres code h
    · exact hadd code h
  refine ⟨_, scan_for_kmers_eq results buf len, ?_, ?_, ?_⟩
  · intro code hcode
    exact ⟨ne_zero_of_lanes code (hadd code hcode), hadd code hcode,
      decode_some_of_lanes code (hadd code hcode)⟩
  · exact unique_loop_count _ (fun h0 => ne_zero_of_lanes 0 (hall 0 h0) rfl)
  · refine ⟨_, output_stage_eq output_counts _
      (fun x hx => decode_some_of_lanes x (hall x hx)), ?_⟩
    rw [List.length_map, List.card_toFinset]
    exact ((List.perm_insertionSort (· ≤ ·) _).dedup).length_eq

set_option maxRecDepth 1000000 in
theorem sentinel_safety_witness :
    ((∀ code ∈ [190719949234312485], ∀ i, i < k - 3 →
        1 ≤ lane (k - 3) code i ∧ lane (k - 3) code i ≤ 5) ∧
      (∀ x, x < 26 → IsBase (ptr "CCNACGTGGTGGCAATNCACGGTAGG".toList x))) ∧
    ∃ added, scan_for_kmers [190719949234312485]
        (ptr "CCNACGTGGTGGCAATNCACGGTAGG".toList) 26 = [190719949234312485] ++ added ∧
      (∀ code ∈ added, code ≠ 0 ∧
        (∀ i, i < k - 3 → 1 ≤ lane (k - 3) code i ∧ lane (k - 3) code i ≤ 5) ∧
        (decode (k - 3) code).isSome) ∧
      unique_loop (([190719949234312485] ++ added).insertionSort (· ≤ ·)) 0 0
        = ([190719949234312485] ++ added).toFinset.card ∧
      ∃ lines, output_stage true ([190719949234312485] ++ added) = some lines ∧
        lines.length = ([190719949234312485] ++ added).toFinset.card :=
  ⟨⟨by decide, by decide⟩,
    sentinel_safety true [190719949234312485] (ptr "CCNACGTGGTGGCAATNCACGGTAGG".toList) 26
      (by decide) (by decide)⟩

/-! ## Packed width -/

theorem sum_eq_pack (L : Nat) :
    (∑ i ∈ Finset.range L, (6 : Int) * 8 ^ i) = ((pack (List.replicate L 6) : Nat) : Int) := by
  induction L with
  | zero => rfl
  | succ n ih =>
    rw [Finset.sum_range_succ, ih, List.replicate_succ, pack_cons, List.length_replicate]
    push_cast; ring

theorem fcm_eq_pack (n : Nat) :
    fcm (n + 1) = some ((pack (List.replicate (n + 1) 6) : Nat) : Int) := by
  induction n with
  | zero => rfl
  | succ n ih =>
    have e : fcm (n + 2)
        = (fcm (n + 1)).map (fun m => Int.lor 6 (m <<< (bits_per_base : Int))) := rfl
    rw [e, ih, Option.map_some']
    refine congrArg some ?_
    rw [Int.shiftLeft_coe_nat]
    show ((_ ||| _ : Nat) : Int) = _
    congr 1
    rw [List.replicate_succ' (n + 1), pack_append, Nat.shiftLeft_eq, bits_per_base,
      Nat.lor_comm]
    have key := Nat.mul_add_lt_is_or (show 6 < 2 ^ 3 by norm_num)
      (pack (List.replicate (n + 1) 6))
    rw [Nat.mul_comm _ (2 ^ 3), ← key]

theorem pack_replicate_lt (L : Nat) (h : L ≤ 21) : pack (List.replicate L 6) < 2 ^ 63 := by
  have h1 := pack_lt (List.replicate L 6) (fun d hd => by
    rw [List.eq_of_mem_replicate hd]; norm_num)
  rw [List.length_replicate] at h1
  have h2 : (8 : Nat) ^ L ≤ 8 ^ 21 := Nat.pow_le_pow_right (by norm_num) h
  have h3 : (8 : Nat) ^ 21 = 2 ^ 63 := by norm_num
  omega

theorem encode_loop_steps (len : Nat) (buf : Nat → Char) :
    ∀ (n i A : Nat), i + n ≤ len →
      encode_loop len buf n i ((A * 8 ^ (len - i) : Nat) : Int) =
        ((((List.range' i n).map (fun j => laneOf (buf j))).foldl
          (fun acc d => acc * 8 + d) A) * 8 ^ (len - i - n) : Nat) := by
  intro n
  induction n with
  | zero => intro i A _; simp [encode_loop]
  | succ n ih =>
    intro i A h
    obtain ⟨m, hm⟩ : ∃ m, len - i - 1 = m := ⟨_, rfl⟩
    have hm1 : len - i = m + 1 := by omega
    have hm2 : len - (i + 1) = m := by omega
    have hm3 : len - i - (n + 1) = len - (i + 1) - n := by omega
    simp only [encode_loop, List.range'_succ, List.map_cons, List.foldl_cons]
    rw [hm3, ← ih (i + 1) (A * 8 + laneOf (buf i)) (by omega)]
    congr 1
    rw [encoding_cast, land_mask_lane, hm, hm1, hm2, Int.shiftLeft_coe_nat]
    show ((_ ||| _ : Nat) : Int) = _
    congr 1
    have hl : laneOf (buf i) % 8 = laneOf (buf i) :=
      Nat.mod_eq_of_lt (by have := laneOf_le (buf i); omega)
    rw [hl, Nat.shiftLeft_eq, bits_per_base]
    have hp : (2:Nat) ^ (3 * m) = 8 ^ m := by rw [pow_mul]; norm_num
    have hb : laneOf (buf i) * 2 ^ (3 * m) < 2 ^ (3 * m + 3) := by
      have := laneOf_le (buf i)
      rw [pow_add]
      have : 0 < 2 ^ (3 * m) := by positivity
      nlinarith
    have key := Nat.mul_add_lt_is_or hb A
    have hq : (2:Nat) ^ (3 * m + 3) = 8 ^ m * 8 := by rw [pow_add, hp]; norm_num
    have e1 : A * 8 ^ (m + 1) = 2 ^ (3 * m + 3) * A := by
      rw [hq, pow_succ]; ring
    rw [e1, ← key, hq, hp]; ring

theorem encode_loop_acc (len : Nat) (buf : Nat → Char) (n : Nat) (h : n ≤ len) :
    encode_loop len buf n 0 0
      = ((pack ((readN buf n).map laneOf) * 8 ^ (len - n) : Nat) : Int) := by
  have := encode_loop_steps len buf n 0 0 (by omega)
  simp only [zero_mul, Nat.cast_zero, Nat.sub_zero] at this
  rw [this, pack, readN, List.range_eq_range', List.map_map]
  rfl

theorem encode_loop_acc_le (len : Nat) (buf : Nat → Char) (n : Nat) (h : n ≤ len) :
    0 ≤ encode_loop len buf n 0 0 ∧ encode_loop len buf n 0 0 ≤ encode len buf := by
  rw [encode_loop_acc len buf n h, encode_eq_pack]
  refine ⟨by positivity, ?_⟩
  have hsplit : readN buf len = readN buf n ++ (List.range' n (len - n)).map buf := by
    unfold readN
    rw [List.range_eq_range', List.range_eq_range', ← List.map_append]
    congr 1
    have := List.range'_append 0 n (len - n) 1
    simp only [one_mul, zero_add] at this
    rw [this]
    congr 1; omega
  rw [hsplit, List.map_append, pack_append_list, List.length_map, List.length_map,
    List.length_range']
  exact_mod_cast Nat.le_add_right _ _

/-- C22 (packed width fits 64 bits): for every length `L` with `1 ≤ L ≤ 21`, `fcm(L)`
returns the sum over `i < L` of `6 * 8^i`, which is below `2^63`; for every string of `L`
symbols of {A,C,G,T,N} the accumulator of `encode<L>` after each iteration and its result
lie between 0 and `fcm(L)`, and so does `fcm(L)` minus the result, which for `L = k-3` is
what `complement` returns. -/
theorem packed_width_fits (L : Nat) (h1 : 1 ≤ L) (h21 : L ≤ 21) :
    fcm L = some (∑ i ∈ Finset.range L, (6 : Int) * 8 ^ i) ∧
    (∑ i ∈ Finset.range L, (6 : Int) * 8 ^ i) < 2 ^ 63 ∧
    ∀ s : List Char, s.length = L → (∀ c ∈ s, IsBase c) →
      (∀ n, n ≤ L → 0 ≤ encode_loop L (ptr s) n 0 0 ∧
        encode_loop L (ptr s) n 0 0 ≤ encode L (ptr s)) ∧
      0 ≤ encode L (ptr s) ∧
      encode L (ptr s) ≤ ∑ i ∈ Finset.range L, (6 : Int) * 8 ^ i ∧
      0 ≤ (∑ i ∈ Finset.range L, (6 : Int) * 8 ^ i) - encode L (ptr s) ∧
      (∑ i ∈ Finset.range L, (6 : Int) * 8 ^ i) - encode L (ptr s)
        ≤ ∑ i ∈ Finset.range L, (6 : Int) * 8 ^ i ∧
      (L = k - 3 → complement (encode L (ptr s))
        = (∑ i ∈ Finset.range L, (6 : Int) * 8 ^ i) - encode L (ptr s)) := by
  rw [sum_eq_pack]
  refine ⟨?_, ?_, ?_⟩
  · obtain ⟨n, rfl⟩ : ∃ n, L = n + 1 := ⟨L - 1, by omega⟩
    exact fcm_eq_pack n
  · have := pack_replicate_lt L h21
    exact_mod_cast this
  · intro s hlen hs
    have he : encode L (ptr s) = ((pack (s.map laneOf) : Nat) : Int) := by
      rw [← hlen, encode_ptr]
    have h6 : ∀ d ∈ s.map laneOf, d ≤ 6 := by
      intro d hd
      obtain ⟨c, -, rfl⟩ := List.mem_map.1 hd
      have := laneOf_le c; omega
    have hsum := pack_replicate_six (s.map laneOf) h6
    rw [List.length_map, hlen] at hsum
    refine ⟨fun n hn => encode_loop_acc_le L (ptr s) n hn, ?_⟩
    rw [he]
    have hle : ((pack (s.map laneOf) : Nat) : Int)
        ≤ ((pack (List.replicate L 6) : Nat) : Int) := by
      have : pack (s.map laneOf) ≤ pack (List.replicate L 6) := by omega
      exact_mod_cast this
    have h0 : (0 : Int) ≤ ((pack (s.map laneOf) : Nat) : Int) := by positivity
    refine ⟨h0, hle, by omega, by omega, ?_⟩
    intro hk
    rw [complement, complement_mask_eq, hk]

theorem packed_width_fits_witness :
    (1 ≤ 20 ∧ 20 ≤ 21) ∧
    fcm 20 = some (∑ i ∈ Finset.range 20, (6 : Int) * 8 ^ i) ∧
    (∑ i ∈ Finset.range 20, (6 : Int) * 8 ^ i) < 2 ^ 63 ∧
    ∀ s : List Char, s.length = 20 → (∀ c ∈ s, IsBase c) →
      (∀ n, n ≤ 20 → 0 ≤ encode_loop 20 (ptr s) n 0 0 ∧
        encode_loop 20 (ptr s) n 0 0 ≤ encode 20 (ptr s)) ∧
      0 ≤ encode 20 (ptr s) ∧
      encode 20 (ptr s) ≤ ∑ i ∈ Finset.range 20, (6 : Int) * 8 ^ i ∧
      0 ≤ (∑ i ∈ Finset.range 20, (6 : Int) * 8 ^ i) - encode 20 (ptr s) ∧
      (∑ i ∈ Finset.range 20, (6 : Int) * 8 ^ i) - encode 20 (ptr s)
        ≤ ∑ i ∈ Finset.range 20, (6 : Int) * 8 ^ i ∧
      (20 = k - 3 → complement (encode 20 (ptr s))
        = (∑ i ∈ Finset.range 20, (6 : Int) * 8 ^ i) - encode 20 (ptr s)) :=
  ⟨⟨by decide, by decide⟩, packed_width_fits 20 (by decide) (by decide)⟩

end CrisprSites
